import Mathlib

/-!
# MemoryPool (cpp/MemoryPool.h)

A shallow embedding of the `MemoryPool<C>` template and its `PoolWatcher`
observers, followed by theorems about the free list, the observer fan-out and
the byte counts the observers receive.

Pointers are natural numbers, `0` is the null pointer.  The heap is the map
from the address of a `Node` to the value of its `next` field.  Everything a
caller or an observer can see (observer calls, `new Node`, `delete`, placement
construction, destruction) is appended to a chronological trace.
-/

namespace MemoryPool

/-! ## Platform constants of the template instance -/

/-- Sizes fixed by the template argument `C` and the platform:
`ptrSize = sizeof(Node*)`, `objSize = sizeof(C)`, `nodeSize = sizeof(Node)`.
A `Node` holds the link followed by `char data[sizeof(C)]`, so it is at least
as large as both together (the compiler may pad it). -/
structure Layout where
  ptrSize : Nat
  objSize : Nat
  nodeSize : Nat
  ptr_pos : 0 < ptrSize
  node_ge : ptrSize + objSize ≤ nodeSize

/-- The usual 64-bit instance with an 8-byte pooled type: `sizeof(Node) = 16`. -/
def lp64 : Layout := ⟨8, 8, 16, by decide, by decide⟩

/-- Conversion of a `size_t` value (or of the product of a `size_t` and an
`int`) to the 32-bit `int` parameter of `onAlloc` and `onFree`: the value
modulo `2^32`, read as two's complement. -/
def intOfSize (x : Int) : Int := (x + 2147483648) % 4294967296 - 2147483648

/-- An observer is identified by the `PoolWatcher*` that was registered. -/
abbrev PoolWatcher := Nat

/-- The four virtual functions of `PoolWatcher`, with their argument. -/
inductive Event where
  | onAlloc (bytes : Int)
  | onFree (bytes : Int)
  | onRequest (obj : Nat)
  | onRelease (obj : Nat)
  deriving DecidableEq, Repr

/-- One externally visible step of the pool. -/
inductive Action where
  /-- The call `w->func` on one observer. -/
  | notify (w : PoolWatcher) (e : Event)
  /-- The statement `new Node`, returning the node at `addr`. -/
  | newNode (addr : Nat)
  /-- The statement `delete temp` on the node at `addr`. -/
  | deleteNode (addr : Nat)
  /-- The placement construction `new(temp->data) C` at `addr`. -/
  | construct (addr : Nat)
  /-- The destructor call `c->~C()` at `addr`. -/
  | destruct (addr : Nat)
  deriving DecidableEq, Repr

/-- The pool: the members `unused` and `watcher`, the part of the heap the
pool reads and writes (the `next` fields), the number of `new Node` executed
so far, and the trace. The `Watcher` list is only ever extended at its head,
so it is kept as the list of the registered pointers, head first. -/
structure Pool where
  unused : Nat
  watcher : List PoolWatcher
  next : Nat → Nat
  nodes : Nat
  trace : List Action

/-- Address returned by the `k`-th `new Node` (counting from 0): the heap
hands out fresh, non-null, pairwise disjoint blocks of `sizeof(Node)` bytes. -/
def nodeAddr (lay : Layout) (k : Nat) : Nat := (k + 1) * lay.nodeSize

/-- Address of `temp->data` for the node at `temp`: `data` follows the link. -/
def dataOf (lay : Layout) (temp : Nat) : Nat := temp + lay.ptrSize

/-- The cast `(Node*)(((char*)c) - sizeof(Node*))` of `release`. -/
def nodeOf (lay : Layout) (c : Nat) : Nat := c - lay.ptrSize

/-- The assignment `temp->next = v`. -/
def setNext (next : Nat → Nat) (temp v : Nat) : Nat → Nat :=
  fun a => if a = temp then v else next a

/-- The macro `CALL_WATCHERS(func)`: walk the watcher list from its head and
call `func` on each entry; nothing happens when the list is empty. -/
def callWatchers (watcher : List PoolWatcher) (e : Event) : List Action :=
  match watcher with
  | [] => []
  | w :: rest => Action.notify w e :: callWatchers rest e

/-- The loop `while (num-- > 0)` of `alloc`: each round allocates a node and
links it in front of `unused`. -/
def allocLoop (lay : Layout) : Nat → Pool → Pool
  | 0, p => p
  | n + 1, p =>
    let temp := nodeAddr lay p.nodes
    allocLoop lay n
      { p with
        unused := temp
        next := setNext p.next temp p.unused
        nodes := p.nodes + 1
        trace := p.trace ++ [Action.newNode temp] }

/-- The member `alloc(int num)`. -/
def alloc (lay : Layout) (num : Int) (p : Pool) : Pool :=
  if num > 0 then
    allocLoop lay num.toNat
      { p with
        trace := p.trace ++
          callWatchers p.watcher (Event.onAlloc (intOfSize (lay.nodeSize * num))) }
  else p

/-- The constructor `MemoryPool()`. -/
def new : Pool := ⟨0, [], fun _ => 0, 0, []⟩

/-- The member `addWatcher(w)`: a new `Watcher` in front of the list. -/
def addWatcher (w : PoolWatcher) (p : Pool) : Pool :=
  { p with watcher := w :: p.watcher }

/-- The constructor `MemoryPool(int num)`. -/
def newNum (lay : Layout) (num : Int) : Pool := alloc lay num new

/-- The constructor `MemoryPool(PoolWatcher* w)`; `none` is the null pointer. -/
def newW (w : Option PoolWatcher) : Pool :=
  match w with
  | some w => addWatcher w new
  | none => new

/-- The constructor `MemoryPool(int num, PoolWatcher* w)`. -/
def newNumW (lay : Layout) (num : Int) (w : Option PoolWatcher) : Pool :=
  alloc lay num (newW w)

/-- The member `objectSize()`: `sizeof(C)` returned as `unsigned`. -/
def objectSize (lay : Layout) (_p : Pool) : Nat := lay.objSize % 4294967296

/-- First half of `request()`: `temp` is chosen, either a fresh node (with the
`onAlloc` fan-out) or the head of `unused`, which is unlinked. -/
def requestSelect (lay : Layout) (p : Pool) : Nat × Pool :=
  if p.unused = 0 then
    let temp := nodeAddr lay p.nodes
    (temp,
      { p with
        nodes := p.nodes + 1
        trace := p.trace ++ [Action.newNode temp] ++
          callWatchers p.watcher (Event.onAlloc (intOfSize lay.nodeSize)) })
  else
    (p.unused, { p with unused := p.next p.unused })

/-- The member `request()`: select the node, notify, construct, return
`temp->data`. -/
def request (lay : Layout) (p : Pool) : Nat × Pool :=
  let s := requestSelect lay p
  let temp := s.1
  let q := s.2
  (dataOf lay temp,
    { q with
      trace := q.trace ++ callWatchers q.watcher (Event.onRequest (dataOf lay temp)) ++
        [Action.construct (dataOf lay temp)] })

/-- First half of `release(c)`: the destructor has run and the observers have
been called; the list is not touched yet. -/
def releaseNotified (lay : Layout) (c : Nat) (p : Pool) : Pool :=
  { p with
    trace := p.trace ++ [Action.destruct c] ++
      callWatchers p.watcher (Event.onRelease (dataOf lay (nodeOf lay c))) }

/-- The member `release(c)`: destruct, recover the node, notify, then link
the node in front of `unused`. -/
def release (lay : Layout) (c : Nat) (p : Pool) : Pool :=
  let q := releaseNotified lay c p
  let temp := nodeOf lay c
  { q with
    next := setNext q.next temp q.unused
    unused := temp }

/-- The loop `while (unused != 0)` of the destructor, with the counter `num`.
The loop follows `next` pointers and need not end on a cyclic list, so it is
given fuel; `none` means the fuel ran out. `++num` is kept in `int` range. -/
def freeLoop : Nat → Int → Pool → Option (Int × Pool)
  | 0, num, p => if p.unused = 0 then some (num, p) else none
  | fuel + 1, num, p =>
    if p.unused = 0 then some (num, p)
    else
      freeLoop fuel (intOfSize (num + 1))
        { p with
          unused := p.next p.unused
          trace := p.trace ++ [Action.deleteNode p.unused] }

/-- The destructor `~MemoryPool()`: free the unused nodes, notify, drop the
watcher list. -/
def destroy (lay : Layout) (fuel : Nat) (p : Pool) : Option Pool :=
  match freeLoop fuel 0 p with
  | none => none
  | some (num, q) =>
    some
      { q with
        watcher := []
        trace := q.trace ++
          callWatchers q.watcher (Event.onFree (intOfSize (lay.nodeSize * num))) }

/-! ## Reading the free list -/

/-- The predicate `IsList next head l`: following `next` from `head` visits
exactly the nodes of `l`, in order, and then reaches the null pointer. -/
def IsList (next : Nat → Nat) : Nat → List Nat → Prop
  | head, [] => head = 0
  | head, a :: l => head = a ∧ a ≠ 0 ∧ IsList next (next a) l

/-- The free list of the pool is `l`. -/
def IsFreeList (p : Pool) (l : List Nat) : Prop := IsList p.next p.unused l

/-- The nodes reached from `head` in at most `fuel` steps. -/
def chain (next : Nat → Nat) : Nat → Nat → List Nat
  | 0, _ => []
  | fuel + 1, head => if head = 0 then [] else head :: chain next fuel (next head)

/-- The free list as computed from the heap: no well-formed pool has more
unused nodes than were ever allocated. -/
def freeList (p : Pool) : List Nat := chain p.next p.nodes p.unused

/-- The observer calls of a trace, in order. -/
def notifications : List Action → List (PoolWatcher × Event)
  | [] => []
  | Action.notify w e :: t => (w, e) :: notifications t
  | _ :: t => notifications t

/-- Registration of the observers `ws`, one `addWatcher` after the other, the
first element of `ws` first. -/
def register (ws : List PoolWatcher) (p : Pool) : Pool :=
  ws.foldl (fun q w => addWatcher w q) p

/-! ## Call sequences and the handles that are out -/

/-- A call made on a pool after its construction. -/
inductive Call where
  | addWatcher (w : PoolWatcher)
  | request
  | release (c : Nat)
  deriving DecidableEq, Repr

/-- A pool together with the bookkeeping of its caller: the handles that
`request` returned and that were not given back yet, and the number of
`request` and `release` calls made. The pool itself keeps none of these. -/
structure Run where
  pool : Pool
  live : List Nat
  requests : Nat
  releases : Nat

/-- The run of a freshly constructed pool. -/
def Run.start (p : Pool) : Run := ⟨p, [], 0, 0⟩

/-- One call: the pool does its work, the caller updates its bookkeeping. -/
def Run.step (lay : Layout) (r : Run) : Call → Run
  | Call.addWatcher w => { r with pool := addWatcher w r.pool }
  | Call.request =>
    { pool := (request lay r.pool).2
      live := (request lay r.pool).1 :: r.live
      requests := r.requests + 1
      releases := r.releases }
  | Call.release c =>
    { pool := release lay c r.pool
      live := r.live.erase c
      requests := r.requests
      releases := r.releases + 1 }

/-- The calls `cs` made in order. -/
def Run.exec (lay : Layout) (r : Run) (cs : List Call) : Run :=
  cs.foldl (Run.step lay) r

/-- Every `release` of `cs` is given a handle that is live when it is made. -/
def Run.Valid (lay : Layout) : Run → List Call → Prop
  | _, [] => True
  | r, Call.release c :: cs => c ∈ r.live ∧ Run.Valid lay (Run.step lay r (Call.release c)) cs
  | r, c :: cs => Run.Valid lay (Run.step lay r c) cs

/-- Number of `new Node` statements in a trace: the slots ever allocated. -/
def slotsAllocated : List Action → Nat
  | [] => 0
  | Action.newNode _ :: t => slotsAllocated t + 1
  | _ :: t => slotsAllocated t

/-- The pool is well formed with free list `l`: following `next` from `unused`
gives `l`, no node occurs twice, every node of `l` came from `new Node`, and
the allocation counter agrees with the trace. -/
def PoolInv (lay : Layout) (p : Pool) (l : List Nat) : Prop :=
  IsFreeList p l ∧ l.Nodup ∧ (∀ a ∈ l, ∃ k, k < p.nodes ∧ a = nodeAddr lay k) ∧
    p.nodes = slotsAllocated p.trace

/-- The run is well formed with free list `l`: the pool is, the live handles
are distinct data addresses of allocated nodes, none of their nodes is on the
free list, every allocated node is on the free list or live, and the counters
add up. -/
def RunInv (lay : Layout) (r : Run) (l : List Nat) : Prop :=
  PoolInv lay r.pool l ∧ r.live.Nodup ∧
    (∀ h ∈ r.live, ∃ k, k < r.pool.nodes ∧ h = dataOf lay (nodeAddr lay k)) ∧
    (∀ h ∈ r.live, nodeOf lay h ∉ l) ∧
    (∀ k, k < r.pool.nodes → nodeAddr lay k ∈ l ∨ dataOf lay (nodeAddr lay k) ∈ r.live) ∧
    l.length + r.live.length = r.pool.nodes ∧
    r.live.length + r.releases = r.requests

/-- The run made of a construction `MemoryPool(num, w)` followed by the calls
`cs` (`MemoryPool()`, `MemoryPool(num)` and `MemoryPool(w)` are the cases
`num = 0` and `w = none`). -/
def session (lay : Layout) (num : Int) (w : Option PoolWatcher) (cs : List Call) : Run :=
  Run.exec lay (Run.start (newNumW lay num w)) cs

/-- Number of `request()` calls of `cs` that find the free list empty
(`unused == 0`) when they are made. -/
def Run.grown (lay : Layout) : Run → List Call → Nat
  | _, [] => 0
  | r, Call.request :: cs =>
    (if r.pool.unused = 0 then 1 else 0) + Run.grown lay (Run.step lay r Call.request) cs
  | r, c :: cs => Run.grown lay (Run.step lay r c) cs

/-- The first `n` nodes the heap hands out, the last allocated first: the
order in which the loop of `alloc` leaves them on the free list. -/
def firstNodes (lay : Layout) (n : Nat) : List Nat :=
  (List.range' 0 n).reverse.map (nodeAddr lay)

/-- The call is a `request()`. -/
def Call.isRequest : Call → Bool
  | Call.request => true
  | _ => false

/-- The call is a `release(c)`. -/
def Call.isRelease : Call → Bool
  | Call.release _ => true
  | _ => false

/-- The calls `release(h)` for the handles `hs`, one after the other. -/
def releases (lay : Layout) (hs : List Nat) (p : Pool) : Pool :=
  hs.foldl (fun q h => release lay h q) p

/-- The handles returned by `n` successive `request()` calls, in the order of
the calls, and the pool they leave. -/
def requests (lay : Layout) : Nat → Pool → List Nat × Pool
  | 0, p => ([], p)
  | n + 1, p =>
    ((request lay p).1 :: (requests lay n (request lay p).2).1,
      (requests lay n (request lay p).2).2)

/-- Sum of the byte counts of the `onAlloc` calls of a list of observer calls. -/
def allocBytes : List (PoolWatcher × Event) → Int
  | [] => 0
  | (_, Event.onAlloc b) :: t => b + allocBytes t
  | _ :: t => allocBytes t

/-- Sum of the byte counts of the `onFree` calls of a list of observer calls. -/
def freeBytes : List (PoolWatcher × Event) → Int
  | [] => 0
  | (_, Event.onFree b) :: t => b + freeBytes t
  | _ :: t => freeBytes t

/-! ## Basic facts -/

theorem callWatchers_eq_map (ws : List PoolWatcher) (e : Event) :
    callWatchers ws e = ws.map (fun w => Action.notify w e) := by
  induction ws with
  | nil => rfl
  | cons w rest ih => simp [callWatchers, ih]

theorem notifications_append (s t : List Action) :
    notifications (s ++ t) = notifications s ++ notifications t := by
  induction s with
  | nil => rfl
  | cons a s ih => cases a <;> simp [notifications, ih]

theorem notifications_callWatchers (ws : List PoolWatcher) (e : Event) :
    notifications (callWatchers ws e) = ws.map (fun w => (w, e)) := by
  induction ws with
  | nil => rfl
  | cons w rest ih => simp [callWatchers, notifications, ih]

theorem notifications_newNodes (l : List Nat) :
    notifications (l.map Action.newNode) = [] := by
  induction l with
  | nil => rfl
  | cons a l ih => simpa [notifications] using ih

theorem notifications_deleteNodes (l : List Nat) :
    notifications (l.map Action.deleteNode) = [] := by
  induction l with
  | nil => rfl
  | cons a l ih => simpa [notifications] using ih

theorem register_watcher (ws : List PoolWatcher) (p : Pool) :
    (register ws p).watcher = ws.reverse ++ p.watcher := by
  induction ws generalizing p with
  | nil => rfl
  | cons w ws ih =>
    show (register ws (addWatcher w p)).watcher = _
    rw [ih]; simp [addWatcher]

theorem register_frame (ws : List PoolWatcher) (p : Pool) :
    (register ws p).unused = p.unused ∧ (register ws p).next = p.next ∧
      (register ws p).nodes = p.nodes ∧ (register ws p).trace = p.trace := by
  induction ws generalizing p with
  | nil => exact ⟨rfl, rfl, rfl, rfl⟩
  | cons w ws ih => exact ih (addWatcher w p)

theorem nodeSize_pos (lay : Layout) : 0 < lay.nodeSize :=
  lt_of_lt_of_le lay.ptr_pos (le_trans (Nat.le_add_right _ _) lay.node_ge)

theorem nodeAddr_ne_zero (lay : Layout) (k : Nat) : nodeAddr lay k ≠ 0 := by
  unfold nodeAddr
  exact Nat.ne_of_gt (Nat.mul_pos (Nat.succ_pos k) (nodeSize_pos lay))

theorem nodeAddr_inj (lay : Layout) {j k : Nat} (h : nodeAddr lay j = nodeAddr lay k) :
    j = k := by
  unfold nodeAddr at h
  have := Nat.eq_of_mul_eq_mul_right (nodeSize_pos lay) h
  omega

theorem nodeOf_dataOf (lay : Layout) (a : Nat) : nodeOf lay (dataOf lay a) = a := by
  simp [nodeOf, dataOf]

theorem dataOf_inj (lay : Layout) {a b : Nat} (h : dataOf lay a = dataOf lay b) : a = b := by
  unfold dataOf at h; omega

theorem isList_setNext {next : Nat → Nat} {head : Nat} {l : List Nat} (temp v : Nat)
    (h : IsList next head l) (hn : temp ∉ l) : IsList (setNext next temp v) head l := by
  induction l generalizing head with
  | nil => exact h
  | cons a l ih =>
    obtain ⟨h1, h2, h3⟩ := h
    have ha : a ≠ temp := fun e => hn (by simp [e])
    refine ⟨h1, h2, ?_⟩
    have : setNext next temp v a = next a := by simp [setNext, ha]
    rw [this]
    exact ih h3 (fun m => hn (List.mem_cons_of_mem _ m))

theorem isList_unique {next : Nat → Nat} {head : Nat} {l m : List Nat}
    (h : IsList next head l) (k : IsList next head m) : l = m := by
  induction l generalizing head m with
  | nil =>
    cases m with
    | nil => rfl
    | cons b m => exact absurd (h ▸ k.1).symm k.2.1
  | cons a l ih =>
    cases m with
    | nil => exact absurd (k ▸ h.1).symm h.2.1
    | cons b m =>
      have e : a = b := h.1.symm.trans k.1
      subst e
      rw [ih h.2.2 k.2.2]

theorem chain_of_isList {next : Nat → Nat} {head : Nat} {l : List Nat}
    (h : IsList next head l) (fuel : Nat) (hf : l.length ≤ fuel) :
    chain next fuel head = l := by
  induction l generalizing head fuel with
  | nil =>
    have h0 : head = 0 := h
    cases fuel <;> simp [chain, h0]
  | cons a l ih =>
    obtain ⟨h1, h2, h3⟩ := h
    cases fuel with
    | zero => simp at hf
    | succ f =>
      have hl : l.length ≤ f := by simpa using hf
      simp [chain, h1, h2, ih h3 f hl]

/-! ## The `int` byte counts -/

theorem intOfSize_of_lt (n : Nat) (h : n < 2147483648) : intOfSize (n : Int) = n := by
  unfold intOfSize; omega

theorem intOfSize_mul (c x : Int) : intOfSize (c * intOfSize x) = intOfSize (c * x) := by
  have key : ∀ a b : Int, a % 4294967296 = b % 4294967296 → intOfSize a = intOfSize b := by
    intro a b hab
    unfold intOfSize
    rw [Int.add_emod, hab, ← Int.add_emod]
  apply key
  have h1 : intOfSize x % 4294967296 = x % 4294967296 := by
    unfold intOfSize; omega
  rw [Int.mul_emod, h1, ← Int.mul_emod]

/-! ## The allocation loop -/

theorem slotsAllocated_append (s t : List Action) :
    slotsAllocated (s ++ t) = slotsAllocated s + slotsAllocated t := by
  induction s with
  | nil => simp [slotsAllocated]
  | cons a s ih =>
    cases a <;> simp [slotsAllocated, ih]
    omega

theorem slotsAllocated_callWatchers (ws : List PoolWatcher) (e : Event) :
    slotsAllocated (callWatchers ws e) = 0 := by
  induction ws with
  | nil => rfl
  | cons w rest ih => simpa [callWatchers, slotsAllocated] using ih

theorem allocLoop_spec (lay : Layout) (n : Nat) (p : Pool) (l : List Nat)
    (h : PoolInv lay p l) :
    ∃ pre : List Nat, PoolInv lay (allocLoop lay n p) (pre ++ l) ∧ pre.length = n ∧
      (allocLoop lay n p).watcher = p.watcher ∧
      (allocLoop lay n p).nodes = p.nodes + n ∧
      (allocLoop lay n p).trace = p.trace ++ pre.reverse.map Action.newNode ∧
      pre = (List.range' p.nodes n).reverse.map (nodeAddr lay) := by
  induction n generalizing p l with
  | zero => exact ⟨[], by simpa [allocLoop] using h, rfl, rfl, rfl, by simp [allocLoop], by simp⟩
  | succ n ih =>
    obtain ⟨hl, hnd, hal, hcnt⟩ := h
    have hfresh : nodeAddr lay p.nodes ∉ l := by
      intro hm
      obtain ⟨k, hk, e⟩ := hal _ hm
      have := nodeAddr_inj lay e
      omega
    have hinv : PoolInv lay
        { p with
          unused := nodeAddr lay p.nodes
          next := setNext p.next (nodeAddr lay p.nodes) p.unused
          nodes := p.nodes + 1
          trace := p.trace ++ [Action.newNode (nodeAddr lay p.nodes)] }
        (nodeAddr lay p.nodes :: l) := by
      refine ⟨⟨rfl, nodeAddr_ne_zero lay _, ?_⟩, List.nodup_cons.mpr ⟨hfresh, hnd⟩, ?_, ?_⟩
      · have e : setNext p.next (nodeAddr lay p.nodes) p.unused (nodeAddr lay p.nodes)
            = p.unused := by simp [setNext]
        show IsList _ (setNext p.next (nodeAddr lay p.nodes) p.unused (nodeAddr lay p.nodes)) l
        rw [e]
        exact isList_setNext _ _ hl hfresh
      · intro a ha
        rcases List.mem_cons.mp ha with e | hm
        · exact ⟨p.nodes, Nat.lt_succ_self _, e⟩
        · obtain ⟨k, hk, e⟩ := hal a hm
          exact ⟨k, Nat.lt_succ_of_lt hk, e⟩
      · show p.nodes + 1 = slotsAllocated (p.trace ++ [Action.newNode (nodeAddr lay p.nodes)])
        rw [slotsAllocated_append, ← hcnt]; rfl
    obtain ⟨pre, h1, h2, h3, h4, h5, h6⟩ := ih _ _ hinv
    refine ⟨pre ++ [nodeAddr lay p.nodes], ?_, ?_, ?_, ?_, ?_, ?_⟩
    rotate_right
    · rw [h6]; simp [List.range'_succ]
    · simpa [allocLoop] using h1
    · simp [h2]
    · simpa [allocLoop] using h3
    · show (allocLoop lay n _).nodes = _
      rw [h4]; show p.nodes + 1 + n = _; omega
    · show (allocLoop lay n _).trace = _
      rw [h5]; simp

theorem poolInv_newW (lay : Layout) (w : Option PoolWatcher) : PoolInv lay (newW w) [] := by
  cases w <;> exact ⟨rfl, List.nodup_nil, by simp, rfl⟩

theorem alloc_spec (lay : Layout) (N : Nat) (p : Pool) (l : List Nat) (h : PoolInv lay p l) :
    ∃ pre : List Nat, PoolInv lay (alloc lay N p) (pre ++ l) ∧ pre.length = N ∧
      (alloc lay N p).watcher = p.watcher ∧
      (alloc lay N p).nodes = p.nodes + N ∧
      (alloc lay N p).trace = p.trace ++
        (if 0 < N then
          callWatchers p.watcher (Event.onAlloc (intOfSize ((lay.nodeSize : Int) * N)))
         else []) ++ pre.reverse.map Action.newNode ∧
      pre = (List.range' p.nodes N).reverse.map (nodeAddr lay) := by
  by_cases hN : 0 < N
  · have hpos : ((N : Nat) : Int) > 0 := by exact_mod_cast hN
    have hinv : PoolInv lay
        { p with
          trace := p.trace ++
            callWatchers p.watcher (Event.onAlloc (intOfSize ((lay.nodeSize : Int) * N))) }
        l := by
      obtain ⟨h1, h2, h3, h4⟩ := h
      refine ⟨h1, h2, h3, ?_⟩
      show p.nodes = slotsAllocated (p.trace ++ _)
      rw [slotsAllocated_append, slotsAllocated_callWatchers, ← h4]; rfl
    obtain ⟨pre, h1, h2, h3, h4, h5, h6⟩ := allocLoop_spec lay N _ l hinv
    refine ⟨pre, ?_, h2, ?_, ?_, ?_, h6⟩
    · simpa [alloc, hpos] using h1
    · simpa [alloc, hpos] using h3
    · simpa [alloc, hpos] using h4
    · simpa [alloc, hpos, hN] using h5
  · have h0 : N = 0 := by omega
    subst h0
    exact ⟨[], by simpa [alloc] using h, rfl, by simp [alloc], by simp [alloc], by simp [alloc],
      by simp⟩

/-! ## `request` and `release`, step by step -/

theorem isList_zero {next : Nat → Nat} {l : List Nat} (h : IsList next 0 l) : l = [] := by
  cases l with
  | nil => rfl
  | cons a l => exact absurd h.1.symm h.2.1

theorem isList_ne_zero {next : Nat → Nat} {head : Nat} {l : List Nat}
    (h : IsList next head l) (hne : head ≠ 0) :
    ∃ rest, l = head :: rest ∧ IsList next (next head) rest := by
  cases l with
  | nil => exact absurd h hne
  | cons a l =>
    obtain ⟨h1, _, h3⟩ := h
    subst h1
    exact ⟨l, rfl, h3⟩

theorem request_empty (lay : Layout) (p : Pool) (h : p.unused = 0) :
    request lay p = (dataOf lay (nodeAddr lay p.nodes),
      { p with
        nodes := p.nodes + 1
        trace := p.trace ++ [Action.newNode (nodeAddr lay p.nodes)] ++
          callWatchers p.watcher (Event.onAlloc (intOfSize lay.nodeSize)) ++
          callWatchers p.watcher (Event.onRequest (dataOf lay (nodeAddr lay p.nodes))) ++
          [Action.construct (dataOf lay (nodeAddr lay p.nodes))] }) := by
  simp [request, requestSelect, h]

theorem request_nonempty (lay : Layout) (p : Pool) (h : p.unused ≠ 0) :
    request lay p = (dataOf lay p.unused,
      { p with
        unused := p.next p.unused
        trace := p.trace ++
          callWatchers p.watcher (Event.onRequest (dataOf lay p.unused)) ++
          [Action.construct (dataOf lay p.unused)] }) := by
  simp [request, requestSelect, h]

theorem setNext_self (next : Nat → Nat) (a : Nat) : setNext next a (next a) = next := by
  funext b
  by_cases e : b = a <;> simp [setNext, e]

theorem release_isFreeList (lay : Layout) (p : Pool) (l : List Nat) (a : Nat)
    (h : IsFreeList p l) (ha : a ≠ 0) (hn : a ∉ l) :
    IsFreeList (release lay (dataOf lay a) p) (a :: l) := by
  have e : setNext p.next a p.unused a = p.unused := by simp [setNext]
  refine ⟨by simp [release, nodeOf_dataOf], ha, ?_⟩
  show IsList (setNext p.next (nodeOf lay (dataOf lay a)) p.unused)
    (setNext p.next (nodeOf lay (dataOf lay a)) p.unused a) l
  rw [nodeOf_dataOf, e]
  exact isList_setNext _ _ h hn

/-! ## The run invariant -/

theorem runInv_start (lay : Layout) (p : Pool) (l : List Nat) (h : PoolInv lay p l)
    (hlen : l.length = p.nodes) : RunInv lay (Run.start p) l := by
  refine ⟨h, List.nodup_nil, by simp [Run.start], by simp [Run.start], ?_, ?_, rfl⟩
  · intro k hk
    left
    obtain ⟨_, hnd, hal, _⟩ := h
    have hk : k < p.nodes := hk
    by_contra hk2
    have hsub : l ⊆ ((List.range p.nodes).erase k).map (nodeAddr lay) := by
      intro a ha
      obtain ⟨j, hj, e⟩ := hal a ha
      refine List.mem_map.mpr ⟨j, ?_, e.symm⟩
      have hjk : j ≠ k := fun e2 => hk2 (by rw [← e2, ← e]; exact ha)
      exact (List.mem_erase_of_ne hjk).mpr (List.mem_range.mpr hj)
    have h1 := (List.subperm_of_subset hnd hsub).length_le
    rw [List.length_map, List.length_erase_of_mem (List.mem_range.mpr hk),
      List.length_range] at h1
    show False
    have : 0 < p.nodes := by omega
    omega
  · show l.length + 0 = p.nodes
    omega

theorem runInv_addWatcher (lay : Layout) (r : Run) (l : List Nat) (w : PoolWatcher)
    (h : RunInv lay r l) : RunInv lay (Run.step lay r (Call.addWatcher w)) l := h

theorem runInv_request (lay : Layout) (r : Run) (l : List Nat) (h : RunInv lay r l) :
    RunInv lay (Run.step lay r Call.request) l.tail ∧
      (Run.step lay r Call.request).pool.nodes =
        r.pool.nodes + (if l = [] then 1 else 0) := by
  obtain ⟨⟨hl, hnd, hal, hcnt⟩, hlnd, hlal, hdis, hcov, hlen, hreq⟩ := h
  by_cases hu : r.pool.unused = 0
  · have hl0 : l = [] := by
      have hl2 : IsList r.pool.next r.pool.unused l := hl
      rw [hu] at hl2
      exact isList_zero hl2
    subst hl0
    have hfresh : dataOf lay (nodeAddr lay r.pool.nodes) ∉ r.live := by
      intro hm
      obtain ⟨k, hk, e⟩ := hlal _ hm
      have := nodeAddr_inj lay (dataOf_inj lay e)
      omega
    simp only [Run.step, request_empty lay r.pool hu, List.tail_nil]
    refine ⟨⟨⟨hl, List.nodup_nil, by simp, ?_⟩, List.nodup_cons.mpr ⟨hfresh, hlnd⟩,
      ?_, by simp, ?_, ?_, ?_⟩, by simp⟩
    · show r.pool.nodes + 1 = slotsAllocated _
      simp only [slotsAllocated_append, slotsAllocated_callWatchers, ← hcnt]
      simp [slotsAllocated]
    · intro h hh
      rcases List.mem_cons.mp hh with e | hm
      · exact ⟨r.pool.nodes, Nat.lt_succ_self _, e⟩
      · obtain ⟨k, hk, e⟩ := hlal h hm
        exact ⟨k, Nat.lt_succ_of_lt hk, e⟩
    · intro k hk
      right
      rcases Nat.lt_succ_iff_lt_or_eq.mp hk with hk1 | hk1
      · rcases hcov k hk1 with hm | hm
        · simp at hm
        · exact List.mem_cons_of_mem _ hm
      · rw [hk1]; exact List.mem_cons_self _ _
    · show 0 + (r.live.length + 1) = r.pool.nodes + 1
      simp at hlen; omega
    · show r.live.length + 1 + r.releases = r.requests + 1
      omega
  · obtain ⟨rest, hl0, hrest⟩ := isList_ne_zero hl hu
    subst hl0
    have hnd2 := List.nodup_cons.mp hnd
    have hfresh : dataOf lay r.pool.unused ∉ r.live := by
      intro hm
      have := hdis _ hm
      rw [nodeOf_dataOf] at this
      exact this (List.mem_cons_self _ _)
    simp only [Run.step, request_nonempty lay r.pool hu, List.tail_cons]
    refine ⟨⟨⟨hrest, hnd2.2, fun a ha => hal a (List.mem_cons_of_mem _ ha), ?_⟩,
      List.nodup_cons.mpr ⟨hfresh, hlnd⟩, ?_, ?_, ?_, ?_, ?_⟩, by simp⟩
    · show r.pool.nodes = slotsAllocated _
      simp only [slotsAllocated_append, slotsAllocated_callWatchers, ← hcnt]
      simp [slotsAllocated]
    · intro h hh
      rcases List.mem_cons.mp hh with e | hm
      · obtain ⟨k, hk, e2⟩ := hal _ (List.mem_cons_self _ _)
        exact ⟨k, hk, by rw [e, e2]⟩
      · exact hlal h hm
    · intro h hh
      rcases List.mem_cons.mp hh with e | hm
      · rw [e, nodeOf_dataOf]; exact hnd2.1
      · exact fun hm2 => hdis h hm (List.mem_cons_of_mem _ hm2)
    · intro k hk
      rcases hcov k hk with hm | hm
      · rcases List.mem_cons.mp hm with e | hm2
        · right; rw [e]; exact List.mem_cons_self _ _
        · left; exact hm2
      · right; exact List.mem_cons_of_mem _ hm
    · show rest.length + (r.live.length + 1) = r.pool.nodes
      simp at hlen; omega
    · show r.live.length + 1 + r.releases = r.requests + 1
      omega

theorem runInv_release (lay : Layout) (r : Run) (l : List Nat) (c : Nat)
    (h : RunInv lay r l) (hc : c ∈ r.live) :
    RunInv lay (Run.step lay r (Call.release c)) (nodeOf lay c :: l) ∧
      (Run.step lay r (Call.release c)).pool.nodes = r.pool.nodes := by
  obtain ⟨⟨hl, hnd, hal, hcnt⟩, hlnd, hlal, hdis, hcov, hlen, hreq⟩ := h
  obtain ⟨k, hk, hck⟩ := hlal c hc
  have hnode : nodeOf lay c = nodeAddr lay k := by rw [hck, nodeOf_dataOf]
  have hfl : IsFreeList (release lay c r.pool) (nodeOf lay c :: l) := by
    have := release_isFreeList lay r.pool l (nodeAddr lay k) hl (nodeAddr_ne_zero lay k)
      (hnode ▸ hdis c hc)
    rw [hnode, hck]; exact this
  have hpos : 0 < r.live.length := List.length_pos_of_mem hc
  refine ⟨⟨⟨hfl, List.nodup_cons.mpr ⟨hdis c hc, hnd⟩, ?_, ?_⟩, hlnd.erase c, ?_, ?_, ?_, ?_, ?_⟩,
    rfl⟩
  · intro a ha
    rcases List.mem_cons.mp ha with e | hm
    · exact ⟨k, hk, e.trans hnode⟩
    · exact hal a hm
  · show r.pool.nodes = slotsAllocated (r.pool.trace ++ [Action.destruct c] ++ _)
    simp only [slotsAllocated_append, slotsAllocated_callWatchers, ← hcnt]
    simp [slotsAllocated]
  · exact fun h hh => hlal h (List.mem_of_mem_erase hh)
  · intro h hh hm
    have hh2 := (hlnd.mem_erase_iff).mp hh
    rcases List.mem_cons.mp hm with e | hm2
    · obtain ⟨j, _, ej⟩ := hlal h hh2.2
      rw [ej, nodeOf_dataOf, hnode] at e
      exact hh2.1 (by rw [ej, hck, e])
    · exact hdis h hh2.2 hm2
  · intro j hj
    rcases hcov j hj with hm | hm
    · left; exact List.mem_cons_of_mem _ hm
    · by_cases e : dataOf lay (nodeAddr lay j) = c
      · left
        have : nodeAddr lay j = nodeOf lay c := by rw [← e, nodeOf_dataOf]
        rw [this]; exact List.mem_cons_self _ _
      · right; exact (hlnd.mem_erase_iff).mpr ⟨e, hm⟩
  · show (l.length + 1) + (r.live.erase c).length = r.pool.nodes
    rw [List.length_erase_of_mem hc]; omega
  · show (r.live.erase c).length + (r.releases + 1) = r.requests
    rw [List.length_erase_of_mem hc]; omega

theorem alloc_toNat (lay : Layout) (num : Int) (p : Pool) :
    alloc lay num p = alloc lay (num.toNat : Int) p := by
  by_cases h : num > 0
  · have : ((num.toNat : Nat) : Int) = num := Int.toNat_of_nonneg (le_of_lt h)
    rw [this]
  · have h0 : num.toNat = 0 := Int.toNat_eq_zero.mpr (not_lt.mp h)
    simp [alloc, h, h0]

theorem constructor_cases (lay : Layout) (num : Int) (w : Option PoolWatcher) :
    new = newNumW lay 0 none ∧ newNum lay num = newNumW lay num none ∧
      newW w = newNumW lay 0 w :=
  ⟨rfl, rfl, rfl⟩

theorem runInv_construct (lay : Layout) (num : Int) (w : Option PoolWatcher) :
    ∃ l, RunInv lay (Run.start (newNumW lay num w)) l := by
  obtain ⟨pre, h1, h2, _, h4, _, _⟩ := alloc_spec lay num.toNat (newW w) [] (poolInv_newW lay w)
  have hn : (newW w).nodes = 0 := by cases w <;> rfl
  refine ⟨pre ++ [], ?_⟩
  unfold newNumW
  rw [alloc_toNat]
  refine runInv_start lay _ _ h1 ?_
  rw [h4, hn]; simp [h2]

theorem runInv_exec (lay : Layout) (cs : List Call) (r : Run) (l : List Nat)
    (h : RunInv lay r l) (hv : Run.Valid lay r cs) :
    ∃ m, RunInv lay (Run.exec lay r cs) m := by
  induction cs generalizing r l with
  | nil => exact ⟨l, h⟩
  | cons c cs ih =>
    cases c with
    | addWatcher w => exact ih _ l (runInv_addWatcher lay r l w h) hv
    | request => exact ih _ _ (runInv_request lay r l h).1 hv
    | release c => exact ih _ _ (runInv_release lay r l c h hv.1).1 hv.2

theorem valid_take (lay : Layout) (cs : List Call) (r : Run) (n : Nat)
    (hv : Run.Valid lay r cs) : Run.Valid lay r (cs.take n) := by
  induction cs generalizing r n with
  | nil => simpa using hv
  | cons c cs ih =>
    cases n with
    | zero => exact trivial
    | succ n =>
      cases c with
      | addWatcher w => exact ih _ n hv
      | request => exact ih _ n hv
      | release c => exact ⟨hv.1, ih _ n hv.2⟩

theorem freeList_of_runInv (lay : Layout) (r : Run) (l : List Nat) (h : RunInv lay r l) :
    freeList r.pool = l := by
  obtain ⟨⟨hl, _⟩, _, _, _, _, hlen, _⟩ := h
  exact chain_of_isList hl _ (by omega)

/-! ## The destructor -/

theorem intOfSize_add (a b : Int) : intOfSize (intOfSize a + b) = intOfSize (a + b) := by
  unfold intOfSize; omega

theorem freeLoop_spec (fuel : Nat) (num : Int) (p : Pool) (l : List Nat)
    (h : IsFreeList p l) (hf : l.length ≤ fuel) :
    ∃ num2 : Int, freeLoop fuel num p =
        some (num2, { p with unused := 0, trace := p.trace ++ l.map Action.deleteNode }) ∧
      intOfSize num2 = intOfSize (num + l.length) := by
  induction l generalizing fuel num p with
  | nil =>
    have h0 : p.unused = 0 := h
    refine ⟨num, ?_, by simp⟩
    cases fuel <;> simp [freeLoop, h0] <;> rw [← h0]
  | cons a l ih =>
    obtain ⟨h1, h2, h3⟩ := h
    cases fuel with
    | zero => simp at hf
    | succ f =>
      have hne : p.unused ≠ 0 := h1 ▸ h2
      have hl : l.length ≤ f := by simpa using hf
      obtain ⟨num2, e1, e2⟩ := ih f (intOfSize (num + 1))
        { p with unused := p.next p.unused, trace := p.trace ++ [Action.deleteNode p.unused] }
        (by rw [h1]; exact h3) hl
      refine ⟨num2, ?_, ?_⟩
      · simp only [freeLoop, hne, if_false]
        rw [e1, h1]; simp
      · rw [e2, intOfSize_add]; congr 1; simp only [List.length_cons]; push_cast; ring

theorem destroy_spec (lay : Layout) (fuel : Nat) (p : Pool) (l : List Nat)
    (h : IsFreeList p l) (hf : l.length ≤ fuel) :
    destroy lay fuel p = some
      { p with
        unused := 0
        watcher := []
        trace := p.trace ++ l.map Action.deleteNode ++
          callWatchers p.watcher
            (Event.onFree (intOfSize ((lay.nodeSize : Int) * (l.length : Int)))) } := by
  obtain ⟨num2, e1, e2⟩ := freeLoop_spec fuel 0 p l h hf
  have e3 : intOfSize ((lay.nodeSize : Int) * num2)
      = intOfSize ((lay.nodeSize : Int) * (l.length : Int)) := by
    rw [← intOfSize_mul, e2, intOfSize_mul]; simp
  simp only [destroy, e1, e3]

/-! ## Observer fan-out -/

theorem allocLoop_notifications (lay : Layout) (n : Nat) (p : Pool) :
    notifications (allocLoop lay n p).trace = notifications p.trace := by
  induction n generalizing p with
  | zero => rfl
  | succ n ih =>
    show notifications (allocLoop lay n _).trace = _
    rw [ih]; simp [notifications_append, notifications]

theorem alloc_notifications (lay : Layout) (num : Int) (p : Pool) :
    notifications (alloc lay num p).trace =
      notifications p.trace ++
        (if num > 0 then
          p.watcher.map (fun w => (w, Event.onAlloc (intOfSize (lay.nodeSize * num))))
         else []) := by
  by_cases hnum : num > 0
  · simp only [alloc, hnum, if_true]
    rw [allocLoop_notifications]
    simp [notifications_append, notifications_callWatchers]
  · simp [alloc, hnum]

theorem callWatchers_count (ws : List PoolWatcher) (e : Event) (w : PoolWatcher) :
    (callWatchers ws e).count (Action.notify w e) = ws.count w := by
  induction ws with
  | nil => rfl
  | cons v rest ih =>
    by_cases hv : v = w
    · subst hv; simp [callWatchers, ih]
    · have hne : Action.notify v e ≠ Action.notify w e := fun h => hv (by injection h)
      simp only [callWatchers, List.count_cons, ih, beq_iff_eq, hne, hv, if_false]

/-- C1. Observers registered with `addWatcher` in the order `ws` on a pool `p`
end up in front of the watcher list in reverse order of registration, and
every event the pool fires (`onAlloc` in `alloc`, `onAlloc` and `onRequest` in
`request`, `onRelease` in `release`, `onFree` in the destructor) is delivered by
a walk of that list from its head: once for each registration, the observer
registered last first. -/
theorem fanout_last_registered_first (lay : Layout) (p : Pool) (ws : List PoolWatcher)
    (l : List Nat) (fuel : Nat) (num : Int) (c : Nat)
    (hl : IsFreeList p l) (hf : l.length ≤ fuel) :
    (register ws p).watcher = ws.reverse ++ p.watcher ∧
    (∀ e, callWatchers (register ws p).watcher e =
      (ws.reverse ++ p.watcher).map (fun w => Action.notify w e)) ∧
    (∀ e w, (callWatchers (register ws p).watcher e).count (Action.notify w e) =
      ws.count w + p.watcher.count w) ∧
    notifications (alloc lay num (register ws p)).trace =
      notifications p.trace ++
        (if num > 0 then
          (ws.reverse ++ p.watcher).map
            (fun w => (w, Event.onAlloc (intOfSize (lay.nodeSize * num))))
         else []) ∧
    notifications (request lay (register ws p)).2.trace =
      notifications p.trace ++
        (if p.unused = 0 then
          (ws.reverse ++ p.watcher).map (fun w => (w, Event.onAlloc (intOfSize lay.nodeSize)))
         else []) ++
        (ws.reverse ++ p.watcher).map
          (fun w => (w, Event.onRequest (request lay (register ws p)).1)) ∧
    notifications (release lay c (register ws p)).trace =
      notifications p.trace ++
        (ws.reverse ++ p.watcher).map
          (fun w => (w, Event.onRelease (dataOf lay (nodeOf lay c)))) ∧
    ∃ q, destroy lay fuel (register ws p) = some q ∧
      notifications q.trace =
        notifications p.trace ++
          (ws.reverse ++ p.watcher).map
            (fun w => (w, Event.onFree (intOfSize (lay.nodeSize * l.length)))) := by
  obtain ⟨fu, fn, fc, ft⟩ := register_frame ws p
  have hw := register_watcher ws p
  refine ⟨hw, ?_, ?_, ?_, ?_, ?_, ?_⟩
  · intro e; rw [hw, callWatchers_eq_map]
  · intro e w; rw [callWatchers_count, hw]; simp
  · rw [alloc_notifications, hw, ft]
  · by_cases hu : p.unused = 0
    · rw [request_empty lay _ (fu.trans hu)]
      simp [notifications_append, notifications_callWatchers, notifications, hw, ft, hu]
    · rw [request_nonempty lay _ (fun h => hu (fu ▸ h))]
      simp [notifications_append, notifications_callWatchers, notifications, hw, ft, hu]
  · simp [release, releaseNotified, notifications_append, notifications_callWatchers,
      notifications, hw, ft]
  · have hl2 : IsFreeList (register ws p) l := by
      unfold IsFreeList; rw [fu, fn]; exact hl
    refine ⟨_, destroy_spec lay fuel _ l hl2 hf, ?_⟩
    simp [notifications_append, notifications_callWatchers, notifications_deleteNodes, hw, ft]

/-- Witness of C1: observer 1 registered first, observer 2 second, on an empty
pool; an event reaches 2 before 1. -/
theorem fanout_last_registered_first_witness :
    IsFreeList new [] ∧ ([] : List Nat).length ≤ 0 ∧
      callWatchers (register [1, 2] new).watcher (Event.onRequest 24) =
        [Action.notify 2 (Event.onRequest 24), Action.notify 1 (Event.onRequest 24)] :=
  ⟨rfl, le_refl _,
    ((fanout_last_registered_first lp64 new [1, 2] [] 0 3 24 rfl (le_refl _)).2.1
      (Event.onRequest 24)).trans rfl⟩

/-! ## Free slots and live slots -/

theorem exec_counts (lay : Layout) (cs : List Call) (r : Run) :
    (Run.exec lay r cs).requests = r.requests + cs.countP Call.isRequest ∧
      (Run.exec lay r cs).releases = r.releases + cs.countP Call.isRelease := by
  induction cs generalizing r with
  | nil => exact ⟨rfl, rfl⟩
  | cons c cs ih =>
    obtain ⟨h1, h2⟩ := ih (Run.step lay r c)
    show (Run.exec lay (Run.step lay r c) cs).requests = _ ∧
      (Run.exec lay (Run.step lay r c) cs).releases = _
    rw [h1, h2]
    cases c <;> simp [Run.step, Call.isRequest, Call.isRelease] <;> omega

theorem exec_nodes (lay : Layout) (cs : List Call) (r : Run) :
    (Run.exec lay r cs).pool.nodes = r.pool.nodes + Run.grown lay r cs := by
  induction cs generalizing r with
  | nil => rfl
  | cons c cs ih =>
    show (Run.exec lay (Run.step lay r c) cs).pool.nodes = _
    rw [ih]
    cases c with
    | addWatcher w => rfl
    | release c => rfl
    | request =>
      show (request lay r.pool).2.nodes + _ = r.pool.nodes + (_ + _)
      by_cases hu : r.pool.unused = 0
      · rw [request_empty lay r.pool hu, if_pos hu]
        show r.pool.nodes + 1 + _ = _
        omega
      · rw [request_nonempty lay r.pool hu, if_neg hu]
        show r.pool.nodes + _ = _
        omega

theorem newNumW_nodes (lay : Layout) (num : Int) (w : Option PoolWatcher) :
    (newNumW lay num w).nodes = num.toNat := by
  unfold newNumW
  rw [alloc_toNat]
  obtain ⟨_, _, _, _, h4, _⟩ := alloc_spec lay num.toNat (newW w) [] (poolInv_newW lay w)
  rw [h4]
  cases w <;> simp [newW, addWatcher, new]

theorem session_inv (lay : Layout) (num : Int) (w : Option PoolWatcher) (cs : List Call)
    (n : Nat) (hv : Run.Valid lay (Run.start (newNumW lay num w)) cs) :
    ∃ l, RunInv lay (session lay num w (cs.take n)) l := by
  obtain ⟨l0, h0⟩ := runInv_construct lay num w
  exact runInv_exec lay _ _ l0 h0 (valid_take lay cs _ n hv)

/-- C2. After a construction and any number of the calls `cs` (each `release`
being given a handle that is live at that moment), the free list read from the
heap ends at the null pointer, holds no node twice and holds the node of no
live handle; every slot allocated so far is on the free list exactly when it
is not live; and the handle a `request()` made at that point returns is not on
the free list when `request()` returns. -/
theorem free_list_excludes_live (lay : Layout) (num : Int) (w : Option PoolWatcher)
    (cs : List Call) (n : Nat)
    (hv : Run.Valid lay (Run.start (newNumW lay num w)) cs) :
    IsFreeList (session lay num w (cs.take n)).pool
        (freeList (session lay num w (cs.take n)).pool) ∧
      (freeList (session lay num w (cs.take n)).pool).Nodup ∧
      (∀ h ∈ (session lay num w (cs.take n)).live,
        nodeOf lay h ∉ freeList (session lay num w (cs.take n)).pool) ∧
      (∀ k, k < (session lay num w (cs.take n)).pool.nodes →
        (nodeAddr lay k ∈ freeList (session lay num w (cs.take n)).pool ↔
          dataOf lay (nodeAddr lay k) ∉ (session lay num w (cs.take n)).live)) ∧
      IsFreeList (request lay (session lay num w (cs.take n)).pool).2
        (freeList (request lay (session lay num w (cs.take n)).pool).2) ∧
      nodeOf lay (request lay (session lay num w (cs.take n)).pool).1 ∉
        freeList (request lay (session lay num w (cs.take n)).pool).2 := by
  obtain ⟨l, hinv⟩ := session_inv lay num w cs n hv
  have hreq := (runInv_request lay _ l hinv).1
  have e1 := freeList_of_runInv lay _ l hinv
  have e2 := freeList_of_runInv lay _ _ hreq
  obtain ⟨⟨hl, hnd, _, _⟩, _, _, hdis, hcov, _, _⟩ := hinv
  obtain ⟨⟨hl2, _, _, _⟩, _, _, hdis2, _, _, _⟩ := hreq
  refine ⟨e1 ▸ hl, e1 ▸ hnd, ?_, ?_, ?_, ?_⟩
  · rw [e1]; exact hdis
  · rw [e1]
    intro k hk
    constructor
    · intro hm hlive
      have := hdis _ hlive
      rw [nodeOf_dataOf] at this
      exact this hm
    · intro hlive
      rcases hcov k hk with hm | hm
      · exact hm
      · exact absurd hm hlive
  · have e3 : freeList (request lay (session lay num w (cs.take n)).pool).2 = l.tail := e2
    rw [e3]; exact hl2
  · have e3 : freeList (request lay (session lay num w (cs.take n)).pool).2 = l.tail := e2
    rw [e3]
    exact hdis2 _ (List.mem_cons_self _ _)

/-- Witness of C2: a pool built with one slot and one observer; `request()`,
`release` of the handle 24 it returned, `request()` again. -/
theorem free_list_excludes_live_witness :
    Run.Valid lp64 (Run.start (newNumW lp64 1 (some 7)))
        [Call.request, Call.release 24, Call.request] ∧
      freeList (session lp64 1 (some 7)
        ([Call.request, Call.release 24, Call.request].take 2)).pool = [16] ∧
      nodeOf lp64 (request lp64 (session lp64 1 (some 7)
        ([Call.request, Call.release 24, Call.request].take 2)).pool).1 ∉
        freeList (request lp64 (session lp64 1 (some 7)
          ([Call.request, Call.release 24, Call.request].take 2)).pool).2 :=
  ⟨⟨by decide, trivial⟩, by decide,
    (free_list_excludes_live lp64 1 (some 7) [Call.request, Call.release 24, Call.request] 2
      ⟨by decide, trivial⟩).2.2.2.2.2⟩

/-- C3. At every point of a sequence of calls with valid releases, the number
of live slots is the number of `request()` calls made minus the number of
`release` calls made, it is at most the number of slots ever allocated (the
`new Node` statements executed, in `alloc` at construction and in each
`request()` that found the free list empty: `num` slots when `num > 0`, plus one
per such request), and the free-list depth plus the live count is exactly that
number. -/
theorem live_count_is_requests_minus_releases (lay : Layout) (num : Int)
    (w : Option PoolWatcher) (cs : List Call) (n : Nat)
    (hv : Run.Valid lay (Run.start (newNumW lay num w)) cs) :
    (session lay num w (cs.take n)).requests = (cs.take n).countP Call.isRequest ∧
      (session lay num w (cs.take n)).releases = (cs.take n).countP Call.isRelease ∧
      (session lay num w (cs.take n)).live.length + (cs.take n).countP Call.isRelease =
        (cs.take n).countP Call.isRequest ∧
      (session lay num w (cs.take n)).live.length =
        (cs.take n).countP Call.isRequest - (cs.take n).countP Call.isRelease ∧
      (session lay num w (cs.take n)).live.length ≤
        slotsAllocated (session lay num w (cs.take n)).pool.trace ∧
      (freeList (session lay num w (cs.take n)).pool).length +
          (session lay num w (cs.take n)).live.length =
        slotsAllocated (session lay num w (cs.take n)).pool.trace ∧
      slotsAllocated (session lay num w (cs.take n)).pool.trace =
        num.toNat + Run.grown lay (Run.start (newNumW lay num w)) (cs.take n) := by
  have hgrow : (session lay num w (cs.take n)).pool.nodes =
      num.toNat + Run.grown lay (Run.start (newNumW lay num w)) (cs.take n) := by
    rw [session, exec_nodes]
    show (newNumW lay num w).nodes + _ = _
    rw [newNumW_nodes]
  obtain ⟨l, hinv⟩ := session_inv lay num w cs n hv
  have e1 := freeList_of_runInv lay _ l hinv
  obtain ⟨c1, c2⟩ := exec_counts lay (cs.take n) (Run.start (newNumW lay num w))
  have c1 : (session lay num w (cs.take n)).requests = (cs.take n).countP Call.isRequest := by
    rw [session, c1]; simp [Run.start]
  have c2 : (session lay num w (cs.take n)).releases = (cs.take n).countP Call.isRelease := by
    rw [session, c2]; simp [Run.start]
  obtain ⟨⟨_, _, _, hcnt⟩, _, _, _, _, hlen, hreq⟩ := hinv
  rw [e1, ← hcnt, ← c1, ← c2]
  refine ⟨rfl, rfl, hreq, ?_, ?_, hlen, hgrow⟩ <;> omega

/-- Witness of C3: the same three calls, looked at after the second. -/
theorem live_count_is_requests_minus_releases_witness :
    Run.Valid lp64 (Run.start (newNumW lp64 1 (some 7)))
        [Call.request, Call.release 24, Call.request] ∧
      (session lp64 1 (some 7)
        ([Call.request, Call.release 24, Call.request].take 2)).live.length = 1 - 1 :=
  ⟨⟨by decide, trivial⟩,
    (live_count_is_requests_minus_releases lp64 1 (some 7)
      [Call.request, Call.release 24, Call.request] 2 ⟨by decide, trivial⟩).2.2.2.1⟩

/-! ## Round trip -/

/-- C4, counterexample. On the pool `MemoryPool()` the free list is empty;
`request()` allocates the node at 16 and `release` of its handle links it, so
after the cycle the depth is 1, not 0. -/
theorem round_trip_depth_counterexample :
    IsFreeList new [] ∧
      IsFreeList (release lp64 (request lp64 new).1 (request lp64 new).2) [16] ∧
      (freeList (release lp64 (request lp64 new).1 (request lp64 new).2)).length ≠
        (freeList new).length :=
  ⟨rfl, ⟨rfl, by decide, rfl⟩, by decide⟩

/-- C4, amended. `request()` followed by `release` of the returned handle
leaves a non-empty free list exactly as it was (same nodes, same order, same
depth); on an empty free list the cycle leaves the one freshly allocated node
on it, so the depth goes from 0 to 1. `objectSize()` is the same before, in the
middle of and after the cycle. -/
theorem round_trip_free_list (lay : Layout) (p : Pool) (l : List Nat)
    (h : IsFreeList p l) :
    IsFreeList (release lay (request lay p).1 (request lay p).2)
        (if l = [] then [nodeAddr lay p.nodes] else l) ∧
      (l ≠ [] → ∀ m, IsFreeList (release lay (request lay p).1 (request lay p).2) m →
        m.length = l.length) ∧
      (l = [] → ∀ m, IsFreeList (release lay (request lay p).1 (request lay p).2) m →
        m.length = l.length + 1) ∧
      objectSize lay (request lay p).2 = objectSize lay p ∧
      objectSize lay (release lay (request lay p).1 (request lay p).2) = objectSize lay p := by
  have main : IsFreeList (release lay (request lay p).1 (request lay p).2)
      (if l = [] then [nodeAddr lay p.nodes] else l) := by
    by_cases hu : p.unused = 0
    · have hl0 : l = [] := by
        have h2 : IsList p.next p.unused l := h
        rw [hu] at h2
        exact isList_zero h2
      subst hl0
      rw [request_empty lay p hu]
      simp only [if_true]
      exact release_isFreeList lay _ [] _ (by exact hu) (nodeAddr_ne_zero lay _) (by simp)
    · obtain ⟨rest, hl0, hrest⟩ := isList_ne_zero h hu
      subst hl0
      rw [request_nonempty lay p hu]
      simp only [release, releaseNotified, nodeOf_dataOf, setNext_self]
      exact ⟨rfl, hu, hrest⟩
  refine ⟨main, ?_, ?_, rfl, rfl⟩
  · intro hne m hm
    rw [if_neg hne] at main
    rw [isList_unique hm main]
  · intro he m hm
    rw [if_pos he] at main
    rw [isList_unique hm main, he]; rfl

/-- Witness of C4: a pool pre-built with two slots, free list `[32, 16]`. -/
theorem round_trip_free_list_witness :
    IsFreeList (newNum lp64 2) [32, 16] ∧
      IsFreeList (release lp64 (request lp64 (newNum lp64 2)).1 (request lp64 (newNum lp64 2)).2)
        [32, 16] :=
  ⟨⟨rfl, by decide, rfl, by decide, rfl⟩,
    (round_trip_free_list lp64 (newNum lp64 2) [32, 16] ⟨rfl, by decide, rfl, by decide, rfl⟩).1⟩

/-! ## Construction with a capacity -/

theorem firstNodes_length (lay : Layout) (n : Nat) : (firstNodes lay n).length = n := by
  simp [firstNodes]

theorem newNumW_spec (lay : Layout) (N : Nat) (w : Option PoolWatcher) :
    PoolInv lay (newNumW lay N w) (firstNodes lay N) ∧
      (newNumW lay N w).watcher = w.toList ∧
      (newNumW lay N w).nodes = N ∧
      (newNumW lay N w).trace =
        (if 0 < N then
          callWatchers w.toList (Event.onAlloc (intOfSize ((lay.nodeSize : Int) * N)))
         else []) ++ (firstNodes lay N).reverse.map Action.newNode := by
  obtain ⟨pre, h1, _, h3, h4, h5, h6⟩ := alloc_spec lay N (newW w) [] (poolInv_newW lay w)
  have hn : (newW w).nodes = 0 := by cases w <;> rfl
  have ht : (newW w).trace = [] := by cases w <;> rfl
  have hw : (newW w).watcher = w.toList := by cases w <;> rfl
  rw [hn] at h6 h4
  have hpre : pre = firstNodes lay N := h6
  subst hpre
  refine ⟨by simpa using h1, h3.trans hw, by simpa using h4, ?_⟩
  show (alloc lay N (newW w)).trace = _
  rw [h5, ht, hw]; simp

theorem construct_onAlloc_notifications (lay : Layout) (N : Nat) (w : PoolWatcher) :
    notifications (newNumW lay N (some w)).trace =
      if 0 < N then [(w, Event.onAlloc (intOfSize ((lay.nodeSize : Int) * N)))] else [] := by
  unfold newNumW
  rw [alloc_notifications]
  by_cases hN : 0 < N
  · have hpos : ((N : Nat) : Int) > 0 := by exact_mod_cast hN
    simp [hN, hpos, newW, addWatcher, new, notifications]
  · have h0 : N = 0 := by omega
    subst h0
    simp [newW, addWatcher, new, notifications]

/-- C5, counterexample. With `sizeof(Node) = 16` and capacity `2^27` the bytes
allocated are `2^31`, which the `int` parameter of `onAlloc` cannot hold: the
observer is called with `-2147483648`. -/
theorem construct_onAlloc_bytes_counterexample :
    notifications (newNumW lp64 134217728 (some 1)).trace =
        [(1, Event.onAlloc (-2147483648))] ∧
      ((134217728 * lp64.nodeSize : Nat) : Int) ≠ -2147483648 := by
  refine ⟨?_, by decide⟩
  unfold newNumW
  rw [alloc_notifications]
  decide

/-- C5, amended. `MemoryPool(N, w)` with an observer `w` leaves a free list of
exactly `N` distinct nodes, all the nodes allocated, and constructs no pooled
instance; for `N > 0` its trace holds exactly one observer call, an `onAlloc`
whose argument is `N * sizeof(Node)` converted to the 32-bit `int` of the
interface, which is `N * sizeof(Node)` itself when that is below `2^31`; for
`N = 0` there is no call. `MemoryPool(N)` leaves the same free list and calls
no observer. -/
theorem construct_with_capacity (lay : Layout) (N : Nat) (w : PoolWatcher) :
    IsFreeList (newNumW lay N (some w)) (firstNodes lay N) ∧
      (firstNodes lay N).length = N ∧ (firstNodes lay N).Nodup ∧
      (newNumW lay N (some w)).nodes = N ∧
      (newNumW lay N (some w)).trace =
        (if 0 < N then
          [Action.notify w (Event.onAlloc (intOfSize ((lay.nodeSize : Int) * N)))]
         else []) ++ (firstNodes lay N).reverse.map Action.newNode ∧
      notifications (newNumW lay N (some w)).trace =
        (if 0 < N then [(w, Event.onAlloc (intOfSize ((lay.nodeSize : Int) * N)))] else []) ∧
      (N * lay.nodeSize < 2147483648 →
        intOfSize ((lay.nodeSize : Int) * N) = ((N * lay.nodeSize : Nat) : Int)) ∧
      IsFreeList (newNumW lay N none) (firstNodes lay N) ∧
      (newNumW lay N none).trace = (firstNodes lay N).reverse.map Action.newNode ∧
      notifications (newNumW lay N none).trace = [] := by
  obtain ⟨⟨a1, a2, _, _⟩, _, a5, a6⟩ := newNumW_spec lay N (some w)
  obtain ⟨⟨b1, _, _, _⟩, _, _, b6⟩ := newNumW_spec lay N none
  have b7 : (newNumW lay N none).trace = (firstNodes lay N).reverse.map Action.newNode := by
    rw [b6]; simp [callWatchers]
  refine ⟨a1, firstNodes_length lay N, a2, a5, ?_, ?_, ?_, b1, b7, ?_⟩
  · rw [a6]; rfl
  · rw [a6, notifications_append, notifications_newNodes]
    by_cases hN : 0 < N <;> simp [hN, callWatchers, notifications]
  · intro hlt
    have e : (lay.nodeSize : Int) * (N : Int) = ((N * lay.nodeSize : Nat) : Int) := by
      push_cast; ring
    rw [e]
    exact intOfSize_of_lt _ hlt
  · rw [b7, notifications_newNodes]

/-- Witness of C5: capacity 5 on the 64-bit layout, 80 bytes. -/
theorem construct_with_capacity_witness :
    5 * lp64.nodeSize < 2147483648 ∧
      intOfSize ((lp64.nodeSize : Int) * (5 : Nat)) = ((5 * lp64.nodeSize : Nat) : Int) :=
  ⟨by decide, (construct_with_capacity lp64 5 1).2.2.2.2.2.2.1 (by decide)⟩

/-! ## Growth on an empty free list -/

/-- C6, counterexample. On the 64-bit layout with an 8-byte pooled type, a
`request()` on the empty pool `MemoryPool(w)` calls `onAlloc(16)`, while
`objectSize()` is 8. -/
theorem request_onAlloc_bytes_counterexample :
    notifications (request lp64 (newW (some 1))).2.trace =
        [(1, Event.onAlloc 16), (1, Event.onRequest 24)] ∧
      objectSize lp64 (request lp64 (newW (some 1))).2 = 8 ∧
      (1, Event.onAlloc (objectSize lp64 (request lp64 (newW (some 1))).2)) ∉
        notifications (request lp64 (newW (some 1))).2.trace := by
  decide

/-- C6, amended. A `request()` on a pool whose free list is empty executes one
`new Node` (the slots ever allocated grow by one, the free list stays empty)
and calls, on every observer, `onAlloc` with `sizeof(Node)` converted to `int`
and only then `onRequest` with the new slot, before constructing.
`sizeof(Node)` is the link plus `sizeof(C)`, so it is larger than what
`objectSize()` returns; when `sizeof(Node)` is below `2^31` the byte count of
`onAlloc` is `sizeof(Node)` itself and so is larger than `objectSize()`. -/
theorem request_on_empty_grows_one_slot (lay : Layout) (p : Pool) (h : p.unused = 0) :
    (request lay p).1 = dataOf lay (nodeAddr lay p.nodes) ∧
      (request lay p).2.nodes = p.nodes + 1 ∧
      slotsAllocated (request lay p).2.trace = slotsAllocated p.trace + 1 ∧
      IsFreeList (request lay p).2 [] ∧
      (request lay p).2.watcher = p.watcher ∧
      (request lay p).2.trace =
        p.trace ++ [Action.newNode (nodeAddr lay p.nodes)] ++
          callWatchers p.watcher (Event.onAlloc (intOfSize lay.nodeSize)) ++
          callWatchers p.watcher (Event.onRequest (dataOf lay (nodeAddr lay p.nodes))) ++
          [Action.construct (dataOf lay (nodeAddr lay p.nodes))] ∧
      (lay.nodeSize < 2147483648 → intOfSize lay.nodeSize = lay.nodeSize) ∧
      lay.ptrSize + objectSize lay p ≤ lay.nodeSize ∧
      objectSize lay p < lay.nodeSize ∧
      (lay.nodeSize < 2147483648 →
        (objectSize lay p : Int) < intOfSize lay.nodeSize ∧
          (lay.ptrSize : Int) + (objectSize lay p : Int) ≤ intOfSize lay.nodeSize) := by
  have hle : objectSize lay p ≤ lay.objSize := Nat.mod_le _ _
  have h1 := lay.ptr_pos
  have h2 := lay.node_ge
  rw [request_empty lay p h]
  refine ⟨rfl, rfl, ?_, h, rfl, rfl, fun hlt => intOfSize_of_lt _ hlt, by omega, by omega, ?_⟩
  · simp [slotsAllocated_append, slotsAllocated_callWatchers, slotsAllocated]
  · intro hlt
    rw [intOfSize_of_lt _ hlt]
    constructor
    · exact_mod_cast (show objectSize lay p < lay.nodeSize by omega)
    · exact_mod_cast (show lay.ptrSize + objectSize lay p ≤ lay.nodeSize by omega)

/-- Witness of C6: the empty pool with one observer on the 64-bit layout, where
`sizeof(Node) = 16` is below `2^31` and exceeds `objectSize() = 8`. -/
theorem request_on_empty_grows_one_slot_witness :
    (newW (some 1)).unused = 0 ∧ (request lp64 (newW (some 1))).2.nodes = 0 + 1 ∧
      lp64.nodeSize < 2147483648 ∧
      (objectSize lp64 (newW (some 1)) : Int) < intOfSize lp64.nodeSize :=
  ⟨rfl, (request_on_empty_grows_one_slot lp64 (newW (some 1)) rfl).2.1, by decide,
    ((request_on_empty_grows_one_slot lp64 (newW (some 1)) rfl).2.2.2.2.2.2.2.2.2
      (by decide)).1⟩

/-! ## Requests on a pre-built pool -/

theorem firstNodes_succ (lay : Layout) (k : Nat) :
    firstNodes lay (k + 1) = nodeAddr lay k :: firstNodes lay k := by
  simp [firstNodes, List.range'_concat]

theorem exec_requests (lay : Layout) (i : Nat) (r : Run) (k : Nat)
    (h : IsFreeList r.pool (firstNodes lay (k + i))) :
    IsFreeList (Run.exec lay r (List.replicate i Call.request)).pool (firstNodes lay k) ∧
      (Run.exec lay r (List.replicate i Call.request)).pool.watcher = r.pool.watcher ∧
      (Run.exec lay r (List.replicate i Call.request)).pool.nodes = r.pool.nodes := by
  induction i generalizing r with
  | zero => exact ⟨h, rfl, rfl⟩
  | succ i ih =>
    have e : k + (i + 1) = (k + i) + 1 := by omega
    rw [e, firstNodes_succ] at h
    obtain ⟨h1, h2, h3⟩ := h
    have hu : r.pool.unused ≠ 0 := h1 ▸ h2
    have hstep : IsFreeList (Run.step lay r Call.request).pool (firstNodes lay (k + i)) := by
      show IsFreeList (request lay r.pool).2 _
      rw [request_nonempty lay r.pool hu]
      show IsList r.pool.next (r.pool.next r.pool.unused) _
      rw [h1]; exact h3
    obtain ⟨g1, g2, g3⟩ := ih (Run.step lay r Call.request) hstep
    refine ⟨g1, g2.trans ?_, g3.trans ?_⟩
    · show (request lay r.pool).2.watcher = _
      rw [request_nonempty lay r.pool hu]
    · show (request lay r.pool).2.nodes = _
      rw [request_nonempty lay r.pool hu]

/-- C7. On a pool pre-built with capacity `N` (with or without an observer),
after `i < N` requests the free list still has the head `nodeAddr k` with
`k = N - 1 - i`; the next `request()` returns the data of that head, leaves
the rest of the list as the free list, allocates nothing and calls `onRequest`
only. After `N` requests the free list is empty, and the next `request()`
executes one `new Node` and calls `onAlloc` once per observer, with
`sizeof(Node)`, before `onRequest`. -/
theorem prebuilt_pool_requests (lay : Layout) (N : Nat) (w : Option PoolWatcher) :
    (∀ i k, i + (k + 1) = N →
      IsFreeList (session lay N w (List.replicate i Call.request)).pool
          (nodeAddr lay k :: firstNodes lay k) ∧
        (request lay (session lay N w (List.replicate i Call.request)).pool).1 =
          dataOf lay (nodeAddr lay k) ∧
        IsFreeList (request lay (session lay N w (List.replicate i Call.request)).pool).2
          (firstNodes lay k) ∧
        (request lay (session lay N w (List.replicate i Call.request)).pool).2.nodes = N ∧
        (request lay (session lay N w (List.replicate i Call.request)).pool).2.trace =
          (session lay N w (List.replicate i Call.request)).pool.trace ++
            callWatchers w.toList (Event.onRequest (dataOf lay (nodeAddr lay k))) ++
            [Action.construct (dataOf lay (nodeAddr lay k))]) ∧
      IsFreeList (session lay N w (List.replicate N Call.request)).pool [] ∧
      (request lay (session lay N w (List.replicate N Call.request)).pool).1 =
        dataOf lay (nodeAddr lay N) ∧
      IsFreeList (request lay (session lay N w (List.replicate N Call.request)).pool).2 [] ∧
      (request lay (session lay N w (List.replicate N Call.request)).pool).2.nodes = N + 1 ∧
      (request lay (session lay N w (List.replicate N Call.request)).pool).2.trace =
        (session lay N w (List.replicate N Call.request)).pool.trace ++
          [Action.newNode (nodeAddr lay N)] ++
          callWatchers w.toList (Event.onAlloc (intOfSize lay.nodeSize)) ++
          callWatchers w.toList (Event.onRequest (dataOf lay (nodeAddr lay N))) ++
          [Action.construct (dataOf lay (nodeAddr lay N))] := by
  obtain ⟨⟨a1, _, _, _⟩, a4, a5, _⟩ := newNumW_spec lay N w
  constructor
  · intro i k hik
    have hstart : IsFreeList (Run.start (newNumW lay N w)).pool (firstNodes lay ((k + 1) + i)) := by
      have e : (k + 1) + i = N := by omega
      rw [e]; exact a1
    obtain ⟨g1, g2, g3⟩ := exec_requests lay i (Run.start (newNumW lay N w)) (k + 1) hstart
    rw [firstNodes_succ] at g1
    have g1b : IsFreeList (session lay N w (List.replicate i Call.request)).pool
        (nodeAddr lay k :: firstNodes lay k) := g1
    have g2b : (session lay N w (List.replicate i Call.request)).pool.watcher = w.toList :=
      g2.trans a4
    have g3b : (session lay N w (List.replicate i Call.request)).pool.nodes = N := g3.trans a5
    obtain ⟨h1, h2, h3⟩ := g1b
    have hu : (session lay N w (List.replicate i Call.request)).pool.unused ≠ 0 := h1 ▸ h2
    refine ⟨⟨h1, h2, h3⟩, ?_, ?_, ?_, ?_⟩
    · rw [request_nonempty lay _ hu, h1]
    · rw [request_nonempty lay _ hu]
      show IsList _ _ _
      simp only [h1]; exact h3
    · rw [request_nonempty lay _ hu]; exact g3b
    · rw [request_nonempty lay _ hu]
      simp only [h1, g2b]
  · have hstart : IsFreeList (Run.start (newNumW lay N w)).pool (firstNodes lay (0 + N)) := by
      rw [Nat.zero_add]; exact a1
    obtain ⟨g1, g2, g3⟩ := exec_requests lay N (Run.start (newNumW lay N w)) 0 hstart
    have g1b : IsFreeList (session lay N w (List.replicate N Call.request)).pool [] := g1
    have g2b : (session lay N w (List.replicate N Call.request)).pool.watcher = w.toList :=
      g2.trans a4
    have g3b : (session lay N w (List.replicate N Call.request)).pool.nodes = N := g3.trans a5
    have hu : (session lay N w (List.replicate N Call.request)).pool.unused = 0 := g1b
    refine ⟨g1b, ?_, ?_, ?_, ?_⟩
    · rw [request_empty lay _ hu, g3b]
    · rw [request_empty lay _ hu]; exact hu
    · rw [request_empty lay _ hu]; simp only [g3b]
    · rw [request_empty lay _ hu]; simp only [g3b, g2b]

/-- Witness of C7: capacity 5; the notifications of the sixth request are one
`onAlloc(16)` and one `onRequest`. -/
theorem prebuilt_pool_requests_witness :
    4 + (0 + 1) = 5 ∧
      (request lp64 (session lp64 (5 : Nat) (some 1) (List.replicate 4 Call.request)).pool).1 =
        dataOf lp64 (nodeAddr lp64 0) ∧
      (request lp64 (session lp64 (5 : Nat) (some 1) (List.replicate 5 Call.request)).pool).2.nodes
        = 5 + 1 :=
  ⟨rfl, ((prebuilt_pool_requests lp64 5 (some 1)).1 4 0 rfl).2.1,
    (prebuilt_pool_requests lp64 5 (some 1)).2.2.2.2.1⟩

/-! ## Release -/

/-- C8. Let `a` be a node that is not on the free list `l` and `h` its data
address (a live handle). The node `release(h)` recovers by subtracting the
link size is `a`, whose data address is `h`. `release(h)` appends to the trace
the destructor call followed by one `onRelease(h)` per observer, and nothing
else; when the observers are called the free list is still `l`; afterwards
the free list is `a :: l`. -/
theorem release_relinks_slot (lay : Layout) (p : Pool) (l : List Nat) (a : Nat)
    (h : IsFreeList p l) (ha : a ≠ 0) (hn : a ∉ l) :
    nodeOf lay (dataOf lay a) = a ∧
      dataOf lay (nodeOf lay (dataOf lay a)) = dataOf lay a ∧
      (releaseNotified lay (dataOf lay a) p).trace =
        p.trace ++ [Action.destruct (dataOf lay a)] ++
          callWatchers p.watcher (Event.onRelease (dataOf lay a)) ∧
      IsFreeList (releaseNotified lay (dataOf lay a) p) l ∧
      (release lay (dataOf lay a) p).trace = (releaseNotified lay (dataOf lay a) p).trace ∧
      notifications (release lay (dataOf lay a) p).trace =
        notifications p.trace ++ p.watcher.map (fun w => (w, Event.onRelease (dataOf lay a))) ∧
      (∀ w, (callWatchers p.watcher (Event.onRelease (dataOf lay a))).count
        (Action.notify w (Event.onRelease (dataOf lay a))) = p.watcher.count w) ∧
      IsFreeList (release lay (dataOf lay a) p) (a :: l) ∧
      (a :: l).length = l.length + 1 ∧
      (release lay (dataOf lay a) p).watcher = p.watcher ∧
      (release lay (dataOf lay a) p).nodes = p.nodes := by
  have e := nodeOf_dataOf lay a
  refine ⟨e, by rw [e], ?_, h, rfl, ?_, fun w => callWatchers_count _ _ w,
    release_isFreeList lay p l a h ha hn, rfl, rfl, rfl⟩
  · simp only [releaseNotified, e]
  · simp [release, releaseNotified, e, notifications_append, notifications_callWatchers,
      notifications]

/-- Witness of C8: the pool built with two slots and an observer, after one
request; the handle 40 of the node 32 is given back. -/
theorem release_relinks_slot_witness :
    IsFreeList (request lp64 (newNumW lp64 2 (some 1))).2 [16] ∧ 32 ≠ 0 ∧ 32 ∉ [16] ∧
      IsFreeList (release lp64 (dataOf lp64 32) (request lp64 (newNumW lp64 2 (some 1))).2)
        [32, 16] :=
  ⟨⟨rfl, by decide, rfl⟩, by decide, by decide,
    (release_relinks_slot lp64 (request lp64 (newNumW lp64 2 (some 1))).2 [16] 32
      ⟨rfl, by decide, rfl⟩ (by decide) (by decide)).2.2.2.2.2.2.2.1⟩

/-! ## Teardown -/

theorem destroy_prebuilt (lay : Layout) (N : Nat) (w : PoolWatcher) :
    ∃ q, destroy lay N (newNumW lay N (some w)) = some q ∧
      (∃ l, IsFreeList (newNumW lay N (some w)) l ∧ l.length = N) ∧
      notifications q.trace =
        (if 0 < N then [(w, Event.onAlloc (intOfSize ((lay.nodeSize : Int) * N)))] else []) ++
          [(w, Event.onFree (intOfSize ((lay.nodeSize : Int) * N)))] := by
  obtain ⟨⟨a1, _, _, _⟩, a4, _, _⟩ := newNumW_spec lay N (some w)
  have hn := construct_onAlloc_notifications lay N w
  have hlen := firstNodes_length lay N
  refine ⟨_, destroy_spec lay N _ _ a1 (Nat.le_of_eq hlen), ⟨_, a1, hlen⟩, ?_⟩
  simp only [notifications_append, notifications_deleteNodes, notifications_callWatchers,
    List.append_nil, a4, hn, hlen]
  rfl

/-- C9, counterexample. A pool built with `2^27` slots of 16 bytes and one
observer, then destroyed: `2^31` bytes are released, and `onFree` is called
with `-2147483648`. -/
theorem destroy_onFree_bytes_counterexample :
    ∃ q, destroy lp64 134217728 (newNumW lp64 (134217728 : Nat) (some 1)) = some q ∧
      (∃ l, IsFreeList (newNumW lp64 (134217728 : Nat) (some 1)) l ∧ l.length = 134217728) ∧
      notifications q.trace =
        [(1, Event.onAlloc (-2147483648)), (1, Event.onFree (-2147483648))] ∧
      ((134217728 * lp64.nodeSize : Nat) : Int) ≠ -2147483648 :=
  Exists.imp
    (fun _ h =>
      And.intro (And.left h)
        (And.intro (And.left (And.right h))
          (And.intro (Eq.trans (And.right (And.right h)) (by decide)) (by decide))))
    (destroy_prebuilt lp64 134217728 1)

/-- C9, amended. Teardown of a pool whose free list `l` is not empty ends (fuel
`l.length` is enough), deletes exactly the nodes of `l`, in order, leaves the
free list empty, and then calls `onFree` once per observer with
`l.length * sizeof(Node)` converted to the 32-bit `int` of the interface, which
is `l.length * sizeof(Node)` itself when that is below `2^31`. Nodes that are
not on the free list are not deleted. -/
theorem destroy_frees_free_list (lay : Layout) (p : Pool) (l : List Nat) (fuel : Nat)
    (h : IsFreeList p l) (hd : l ≠ []) (hf : l.length ≤ fuel) :
    ∃ q, destroy lay fuel p = some q ∧ IsFreeList q [] ∧
      q.trace = p.trace ++ l.map Action.deleteNode ++
        callWatchers p.watcher
          (Event.onFree (intOfSize ((lay.nodeSize : Int) * (l.length : Int)))) ∧
      notifications q.trace = notifications p.trace ++
        p.watcher.map
          (fun w => (w, Event.onFree (intOfSize ((lay.nodeSize : Int) * (l.length : Int))))) ∧
      (∀ a, Action.deleteNode a ∈ q.trace → Action.deleteNode a ∈ p.trace ∨ a ∈ l) ∧
      (l.length * lay.nodeSize < 2147483648 →
        intOfSize ((lay.nodeSize : Int) * (l.length : Int)) =
          ((l.length * lay.nodeSize : Nat) : Int)) ∧
      0 < l.length := by
  refine ⟨_, destroy_spec lay fuel p l h hf, rfl, rfl, ?_, ?_, ?_, List.length_pos.mpr hd⟩
  · simp [notifications_append, notifications_deleteNodes, notifications_callWatchers]
  · intro a ha
    simp only [List.mem_append, List.mem_map, callWatchers_eq_map] at ha
    rcases ha with (ha | ⟨b, hb, e⟩) | ⟨w, _, e⟩
    · exact Or.inl ha
    · right; injection e with e; exact e ▸ hb
    · exact Action.noConfusion e
  · intro hlt
    have e : (lay.nodeSize : Int) * (l.length : Int) = ((l.length * lay.nodeSize : Nat) : Int) := by
      push_cast; ring
    rw [e]
    exact intOfSize_of_lt _ hlt

/-- Witness of C9: a pool built with two slots and an observer; one slot is
requested and still live at teardown, one is on the free list. -/
theorem destroy_frees_free_list_witness :
    IsFreeList (request lp64 (newNumW lp64 2 (some 1))).2 [16] ∧ [16] ≠ [] ∧
      [16].length ≤ 1 ∧
      ∃ q, destroy lp64 1 (request lp64 (newNumW lp64 2 (some 1))).2 = some q ∧
        notifications q.trace = notifications (request lp64 (newNumW lp64 2 (some 1))).2.trace ++
          (request lp64 (newNumW lp64 2 (some 1))).2.watcher.map
            (fun w => (w, Event.onFree (intOfSize ((lp64.nodeSize : Int) * ([16].length : Int)))))
    :=
  ⟨⟨rfl, by decide, rfl⟩, by decide, by decide,
    (destroy_frees_free_list lp64 (request lp64 (newNumW lp64 2 (some 1))).2 [16] 1
      ⟨rfl, by decide, rfl⟩ (by decide) (by decide)).imp fun _ h => ⟨h.1, h.2.2.2.1⟩⟩

/-- C10, the code at the failing input. The pool `MemoryPool(w)` with one
observer is destroyed while its free list is empty: nothing is deleted, and the
observer is still called, with `onFree(0)`. -/
theorem destroy_empty_pool_calls_onFree :
    (destroy lp64 0 (newW (some 1))).map (fun q => q.trace) =
      some [Action.notify 1 (Event.onFree 0)] := by
  decide

/-! ## The `onRequest` notification -/

theorem requestSelect_empty (lay : Layout) (p : Pool) (h : p.unused = 0) :
    requestSelect lay p = (nodeAddr lay p.nodes,
      { p with
        nodes := p.nodes + 1
        trace := p.trace ++ [Action.newNode (nodeAddr lay p.nodes)] ++
          callWatchers p.watcher (Event.onAlloc (intOfSize lay.nodeSize)) }) := by
  simp [requestSelect, h]

theorem requestSelect_nonempty (lay : Layout) (p : Pool) (h : p.unused ≠ 0) :
    requestSelect lay p = (p.unused, { p with unused := p.next p.unused }) := by
  simp [requestSelect, h]

/-- C11. On a well-formed pool with free list `l`, `request()` first selects a
node (the head of `l`, which is unlinked, or a fresh node with its `onAlloc`
fan-out when `l` is empty), then calls `onRequest` once per observer with the
data address of that node, then constructs there, and returns that same
address. After the call the node is not on the free list and the handle is
among the live ones of the caller. -/
theorem request_notifies_selected_slot (lay : Layout) (r : Run) (l : List Nat)
    (h : PoolInv lay r.pool l) :
    (requestSelect lay r.pool).1 = l.headD (nodeAddr lay r.pool.nodes) ∧
      (requestSelect lay r.pool).2.trace =
        r.pool.trace ++
          (if r.pool.unused = 0 then
            [Action.newNode (nodeAddr lay r.pool.nodes)] ++
              callWatchers r.pool.watcher (Event.onAlloc (intOfSize lay.nodeSize))
           else []) ∧
      IsFreeList (requestSelect lay r.pool).2 l.tail ∧
      (request lay r.pool).1 = dataOf lay (requestSelect lay r.pool).1 ∧
      nodeOf lay (request lay r.pool).1 = (requestSelect lay r.pool).1 ∧
      (request lay r.pool).2.trace =
        (requestSelect lay r.pool).2.trace ++
          callWatchers r.pool.watcher (Event.onRequest (request lay r.pool).1) ++
          [Action.construct (request lay r.pool).1] ∧
      (∀ w, (callWatchers r.pool.watcher (Event.onRequest (request lay r.pool).1)).count
        (Action.notify w (Event.onRequest (request lay r.pool).1)) = r.pool.watcher.count w) ∧
      IsFreeList (request lay r.pool).2 l.tail ∧
      nodeOf lay (request lay r.pool).1 ∉ l.tail ∧
      (request lay r.pool).1 ∈ (Run.step lay r Call.request).live := by
  obtain ⟨hl, hnd, _, _⟩ := h
  have hcount := fun (c : Nat) (w : PoolWatcher) =>
    callWatchers_count r.pool.watcher (Event.onRequest c) w
  by_cases hu : r.pool.unused = 0
  · have hl0 : l = [] := by
      have hl2 : IsList r.pool.next r.pool.unused l := hl
      rw [hu] at hl2
      exact isList_zero hl2
    subst hl0
    have e1 := requestSelect_empty lay r.pool hu
    have e2 := request_empty lay r.pool hu
    refine ⟨by rw [e1]; rfl, by rw [e1, if_pos hu]; simp, by rw [e1]; exact hu, by rw [e1, e2],
      by rw [e1, e2, nodeOf_dataOf], ?_, fun w => hcount _ w, by rw [e2]; exact hu,
      by simp, List.mem_cons_self _ _⟩
    rw [e1, e2]
  · obtain ⟨rest, hl0, hrest⟩ := isList_ne_zero hl hu
    subst hl0
    have e1 := requestSelect_nonempty lay r.pool hu
    have e2 := request_nonempty lay r.pool hu
    refine ⟨by rw [e1]; rfl, by rw [e1, if_neg hu]; simp, by rw [e1]; exact hrest,
      by rw [e1, e2], by rw [e1, e2, nodeOf_dataOf], ?_, fun w => hcount _ w,
      by rw [e2]; exact hrest, ?_, List.mem_cons_self _ _⟩
    · rw [e1, e2]
    · rw [e2, nodeOf_dataOf]
      exact (List.nodup_cons.mp hnd).1

/-- Witness of C11: a pool built with two slots and one observer. -/
theorem request_notifies_selected_slot_witness :
    PoolInv lp64 (Run.start (newNumW lp64 2 (some 1))).pool [32, 16] ∧
      (request lp64 (Run.start (newNumW lp64 2 (some 1))).pool).1 = dataOf lp64 32 ∧
      nodeOf lp64 (request lp64 (Run.start (newNumW lp64 2 (some 1))).pool).1 ∉ [16] :=
  ⟨⟨⟨rfl, by decide, rfl, by decide, rfl⟩, by decide, by decide, by decide⟩,
    (request_notifies_selected_slot lp64 (Run.start (newNumW lp64 2 (some 1))) [32, 16]
      ⟨⟨rfl, by decide, rfl, by decide, rfl⟩, by decide, by decide, by decide⟩).2.2.2.1,
    (request_notifies_selected_slot lp64 (Run.start (newNumW lp64 2 (some 1))) [32, 16]
      ⟨⟨rfl, by decide, rfl, by decide, rfl⟩, by decide, by decide, by decide⟩).2.2.2.2.2.2.2.2.1⟩

/-! ## Registration -/

theorem mem_callWatchers (ws : List PoolWatcher) (e : Event) (o : PoolWatcher) (h : o ∈ ws) :
    Action.notify o e ∈ callWatchers ws e := by
  rw [callWatchers_eq_map]
  exact List.mem_map.mpr ⟨o, h, rfl⟩

theorem step_watcher_mem (lay : Layout) (r : Run) (c : Call) (o : PoolWatcher)
    (h : o ∈ r.pool.watcher) : o ∈ (Run.step lay r c).pool.watcher := by
  cases c with
  | addWatcher w => exact List.mem_cons_of_mem _ h
  | release c => exact h
  | request =>
    show o ∈ (request lay r.pool).2.watcher
    by_cases hu : r.pool.unused = 0
    · rw [request_empty lay r.pool hu]; exact h
    · rw [request_nonempty lay r.pool hu]; exact h

theorem exec_watcher_mem (lay : Layout) (cs : List Call) (r : Run) (o : PoolWatcher)
    (h : o ∈ r.pool.watcher) : o ∈ (Run.exec lay r cs).pool.watcher := by
  induction cs generalizing r with
  | nil => exact h
  | cons c cs ih => exact ih _ (step_watcher_mem lay r c o h)

/-- C12. `addWatcher(o)` appends nothing to the trace (no observer is called),
leaves `unused`, every link and the allocation count as they were, and puts
`o` in front of the watcher list, whose previous entries keep their order.
From then on `o` stays registered through any calls, and on any pool where
`o` is registered each notifying operation calls `o`: `request()` with
`onRequest` (and `onAlloc` when it allocates), `release` with `onRelease`,
`alloc` with `onAlloc`, and the destructor with `onFree`. -/
theorem addWatcher_silent_then_notified (lay : Layout) (p : Pool) (o : PoolWatcher) :
    (addWatcher o p).trace = p.trace ∧
      (addWatcher o p).unused = p.unused ∧
      (addWatcher o p).next = p.next ∧
      (addWatcher o p).nodes = p.nodes ∧
      (∀ l, IsFreeList (addWatcher o p) l ↔ IsFreeList p l) ∧
      (addWatcher o p).watcher = o :: p.watcher ∧
      (newW (some o)).trace = [] ∧
      (∀ (live : List Nat) (a b : Nat) (cs : List Call),
        o ∈ (Run.exec lay ⟨addWatcher o p, live, a, b⟩ cs).pool.watcher) ∧
      (∀ q : Pool, o ∈ q.watcher →
        Action.notify o (Event.onRequest (request lay q).1) ∈ (request lay q).2.trace ∧
        (q.unused = 0 →
          Action.notify o (Event.onAlloc (intOfSize lay.nodeSize)) ∈ (request lay q).2.trace) ∧
        (∀ c, Action.notify o (Event.onRelease (dataOf lay (nodeOf lay c))) ∈
          (release lay c q).trace) ∧
        (∀ num : Int, num > 0 →
          Action.notify o (Event.onAlloc (intOfSize (lay.nodeSize * num))) ∈
            (alloc lay num q).trace) ∧
        (∀ l fuel, IsFreeList q l → l.length ≤ fuel →
          ∃ q2, destroy lay fuel q = some q2 ∧
            Action.notify o (Event.onFree (intOfSize (lay.nodeSize * l.length))) ∈ q2.trace)) := by
  refine ⟨rfl, rfl, rfl, rfl, fun l => Iff.rfl, rfl, rfl, ?_, ?_⟩
  · intro live a b cs
    exact exec_watcher_mem lay cs _ o (List.mem_cons_self _ _)
  · intro q ho
    refine ⟨?_, ?_, ?_, ?_, ?_⟩
    · by_cases hu : q.unused = 0
      · rw [request_empty lay q hu]
        simp only [List.mem_append]
        exact Or.inl (Or.inr (mem_callWatchers _ _ _ ho))
      · rw [request_nonempty lay q hu]
        simp only [List.mem_append]
        exact Or.inl (Or.inr (mem_callWatchers _ _ _ ho))
    · intro hu
      rw [request_empty lay q hu]
      simp only [List.mem_append]
      exact Or.inl (Or.inl (Or.inr (mem_callWatchers _ _ _ ho)))
    · intro c
      show _ ∈ q.trace ++ [Action.destruct c] ++ callWatchers q.watcher _
      exact List.mem_append_right _ (mem_callWatchers _ _ _ ho)
    · intro num hnum
      have hmem : ∀ (n : Nat) (s : Pool) (x : Action), x ∈ s.trace →
          x ∈ (allocLoop lay n s).trace := by
        intro n
        induction n with
        | zero => exact fun s x hx => hx
        | succ n ih =>
          intro s x hx
          exact ih _ x (List.mem_append_left _ hx)
      simp only [alloc, hnum, if_true]
      exact hmem _ _ _ (List.mem_append_right _ (mem_callWatchers _ _ _ ho))
    · intro l fuel hl hf
      refine ⟨_, destroy_spec lay fuel q l hl hf, ?_⟩
      exact List.mem_append_right _ (mem_callWatchers _ _ _ ho)

/-- Witness of C12: observer 2 is added to a pool that holds observer 1 and
has seen one request; the next request calls observer 2. -/
theorem addWatcher_silent_then_notified_witness :
    (addWatcher 2 (request lp64 (newW (some 1))).2).trace = (request lp64 (newW (some 1))).2.trace ∧
      (2 : PoolWatcher) ∈ (addWatcher 2 (request lp64 (newW (some 1))).2).watcher ∧
      Action.notify 2 (Event.onRequest (request lp64
          (addWatcher 2 (request lp64 (newW (some 1))).2)).1) ∈
        (request lp64 (addWatcher 2 (request lp64 (newW (some 1))).2)).2.trace :=
  ⟨rfl, by decide,
    ((addWatcher_silent_then_notified lp64 (request lp64 (newW (some 1))).2 2).2.2.2.2.2.2.2.2
      (addWatcher 2 (request lp64 (newW (some 1))).2) (by decide)).1⟩

/-! ## Release of a handle that is not live -/

theorem not_isList_self_loop (next : Nat → Nat) (a : Nat) (hne : a ≠ 0) (hloop : next a = a)
    (l : List Nat) : ¬ IsList next a l := by
  induction l with
  | nil => exact fun h => hne h
  | cons b l ih =>
    intro h
    obtain ⟨h1, _, h3⟩ := h
    subst h1
    rw [hloop] at h3
    exact ih h3

theorem request_returns_node (lay : Layout) (p : Pool) :
    ∃ temp q, request lay p = (dataOf lay temp, q) ∧ temp ≠ 0 ∧ q.watcher = p.watcher := by
  by_cases hu : p.unused = 0
  · exact ⟨_, _, request_empty lay p hu, nodeAddr_ne_zero lay _, rfl⟩
  · exact ⟨_, _, request_nonempty lay p hu, hu, rfl⟩

theorem request_self_loop (lay : Layout) (d : Pool) (temp : Nat) (hu : d.unused = temp)
    (hne : temp ≠ 0) (hloop : d.next temp = temp) :
    (request lay d).1 = dataOf lay temp ∧ (request lay d).2.unused = temp ∧
      (request lay d).2.next = d.next ∧ (request lay d).2.nodes = d.nodes := by
  have hu2 : d.unused ≠ 0 := hu ▸ hne
  rw [request_nonempty lay d hu2]
  refine ⟨by rw [hu], ?_, rfl, rfl⟩
  show d.next d.unused = temp
  rw [hu, hloop]

/-- C16. `release` checks nothing. On any pool, let `h` be the handle returned
by a `request()`; `release(h)` twice in a row is carried out like any other
release (two destructor calls, two `onRelease` fan-outs), although the second
one is given a handle that is not live. Afterwards the node of `h` points to
itself: the next two `request()` calls both return `h`, neither allocates, and
the node of `h` is still the head of the free list after each of them. -/
theorem double_release_hands_out_twice (lay : Layout) (p : Pool) :
    (release lay (request lay p).1 (release lay (request lay p).1 (request lay p).2)).trace =
        (request lay p).2.trace ++
          [Action.destruct (request lay p).1] ++
          callWatchers p.watcher (Event.onRelease (request lay p).1) ++
          [Action.destruct (request lay p).1] ++
          callWatchers p.watcher (Event.onRelease (request lay p).1) ∧
      ¬ Run.Valid lay (Run.start p)
        [Call.request, Call.release (request lay p).1, Call.release (request lay p).1] ∧
      (request lay
        (release lay (request lay p).1 (release lay (request lay p).1 (request lay p).2))).1 =
        (request lay p).1 ∧
      (request lay (request lay
        (release lay (request lay p).1 (release lay (request lay p).1 (request lay p).2))).2).1 =
        (request lay p).1 ∧
      (request lay
        (release lay (request lay p).1 (release lay (request lay p).1 (request lay p).2))).2.unused =
        nodeOf lay (request lay p).1 ∧
      (request lay (request lay
        (release lay (request lay p).1 (release lay (request lay p).1
          (request lay p).2))).2).2.unused = nodeOf lay (request lay p).1 ∧
      nodeOf lay (request lay p).1 ≠ 0 ∧
      (request lay (request lay
        (release lay (request lay p).1 (release lay (request lay p).1
          (request lay p).2))).2).2.nodes = (request lay p).2.nodes ∧
      (∀ l, ¬ IsFreeList
        (release lay (request lay p).1 (release lay (request lay p).1 (request lay p).2)) l) := by
  obtain ⟨temp, q, hq, hne, hw⟩ := request_returns_node lay p
  have hv : ¬ Run.Valid lay (Run.start p)
      [Call.request, Call.release (request lay p).1, Call.release (request lay p).1] := by
    intro hv
    have h2 : (request lay p).1 ∈ ((request lay p).1 :: (Run.start p).live).erase
        (request lay p).1 := hv.2.1
    simp [Run.start] at h2
  refine ⟨?_, hv, ?_⟩
  · rw [hq]
    simp only [release, releaseNotified, nodeOf_dataOf, hw, List.append_assoc]
  · rw [hq]
    simp only
    have hd1 : (release lay (dataOf lay temp) (release lay (dataOf lay temp) q)).unused = temp := by
      simp [release, releaseNotified, nodeOf_dataOf]
    have hd2 : (release lay (dataOf lay temp) (release lay (dataOf lay temp) q)).next temp
        = temp := by
      simp [release, releaseNotified, nodeOf_dataOf, setNext]
    have hd3 : (release lay (dataOf lay temp) (release lay (dataOf lay temp) q)).nodes
        = q.nodes := rfl
    obtain ⟨a1, a2, a3, a4⟩ := request_self_loop lay _ temp hd1 hne hd2
    obtain ⟨b1, b2, _, b4⟩ := request_self_loop lay _ temp a2 hne (by rw [a3]; exact hd2)
    refine ⟨a1, b1, by rw [a2, nodeOf_dataOf], by rw [b2, nodeOf_dataOf],
      by rw [nodeOf_dataOf]; exact hne, by rw [b4, a4, hd3], ?_⟩
    intro l hl
    have hl2 : IsList (release lay (dataOf lay temp) (release lay (dataOf lay temp) q)).next
        (release lay (dataOf lay temp) (release lay (dataOf lay temp) q)).unused l := hl
    rw [hd1] at hl2
    exact not_isList_self_loop _ temp hne hd2 l hl2

/-! ## The free list as a stack -/

theorem releases_isFreeList (lay : Layout) (nodes : List Nat) (p : Pool) (l : List Nat)
    (h : IsFreeList p l) (hnd : nodes.Nodup) (hn : ∀ b ∈ nodes, b ≠ 0 ∧ b ∉ l) :
    IsFreeList (releases lay (nodes.map (dataOf lay)) p) (nodes.reverse ++ l) ∧
      (releases lay (nodes.map (dataOf lay)) p).watcher = p.watcher ∧
      (releases lay (nodes.map (dataOf lay)) p).nodes = p.nodes ∧
      notifications (releases lay (nodes.map (dataOf lay)) p).trace =
        notifications p.trace ++
          nodes.flatMap (fun b => p.watcher.map (fun w => (w, Event.onRelease (dataOf lay b)))) := by
  induction nodes generalizing p l with
  | nil => exact ⟨h, rfl, rfl, by simp [releases]⟩
  | cons a rest ih =>
    obtain ⟨ha1, ha2⟩ := hn a (List.mem_cons_self _ _)
    obtain ⟨hna, hrest⟩ := List.nodup_cons.mp hnd
    have hstep := release_isFreeList lay p l a h ha1 ha2
    have hn2 : ∀ b ∈ rest, b ≠ 0 ∧ b ∉ a :: l := by
      intro b hb
      obtain ⟨hb1, hb2⟩ := hn b (List.mem_cons_of_mem _ hb)
      refine ⟨hb1, fun hm => ?_⟩
      rcases List.mem_cons.mp hm with e | hm2
      · exact hna (e ▸ hb)
      · exact hb2 hm2
    obtain ⟨g1, g2, g3, g4⟩ := ih (release lay (dataOf lay a) p) (a :: l) hstep hrest hn2
    have e : releases lay ((a :: rest).map (dataOf lay)) p
        = releases lay (rest.map (dataOf lay)) (release lay (dataOf lay a) p) := rfl
    rw [e]
    refine ⟨by simpa using g1, g2, g3, ?_⟩
    rw [g4]
    simp [release, releaseNotified, nodeOf_dataOf, notifications_append,
      notifications_callWatchers, notifications]

theorem requests_pop (lay : Layout) (m : List Nat) (p : Pool) (l : List Nat)
    (h : IsFreeList p (m ++ l)) :
    (requests lay m.length p).1 = m.map (dataOf lay) ∧
      IsFreeList (requests lay m.length p).2 l ∧
      (requests lay m.length p).2.nodes = p.nodes ∧
      (requests lay m.length p).2.watcher = p.watcher ∧
      slotsAllocated (requests lay m.length p).2.trace = slotsAllocated p.trace := by
  induction m generalizing p with
  | nil => exact ⟨rfl, h, rfl, rfl, rfl⟩
  | cons b m ih =>
    obtain ⟨h1, h2, h3⟩ := h
    have hu : p.unused ≠ 0 := h1 ▸ h2
    have e := request_nonempty lay p hu
    have hq : IsFreeList (request lay p).2 (m ++ l) := by
      rw [e]
      show IsList p.next (p.next p.unused) _
      rw [h1]; exact h3
    obtain ⟨g1, g2, g3, g4, g5⟩ := ih (request lay p).2 hq
    refine ⟨?_, g2, ?_, ?_, ?_⟩
    · show (request lay p).1 :: (requests lay m.length (request lay p).2).1 = _
      rw [g1, e, h1]; rfl
    · show (requests lay m.length (request lay p).2).2.nodes = _
      rw [g3, e]
    · show (requests lay m.length (request lay p).2).2.watcher = _
      rw [g4, e]
    · show slotsAllocated (requests lay m.length (request lay p).2).2.trace = _
      rw [g5, e]
      simp [slotsAllocated_append, slotsAllocated_callWatchers, slotsAllocated]

/-- C14. Let `a` be a node that is not on the free list `l` and `h` its data
address. `release(h)` followed at once by `request()` returns `h`, appends only
the `onRequest` fan-out and the construction (no `new Node`, no `onAlloc`), and
leaves the free list `l`. More generally the free list is a stack: releasing
the handles of distinct nodes that are not on `l` puts them in front of `l`,
last released first, and as many `request()` calls return these handles in the
opposite order of their release and leave `l`. -/
theorem release_then_request_lifo (lay : Layout) (p : Pool) (l : List Nat) (a : Nat)
    (h : IsFreeList p l) (ha : a ≠ 0) (hn : a ∉ l) :
    (request lay (release lay (dataOf lay a) p)).1 = dataOf lay a ∧
      (request lay (release lay (dataOf lay a) p)).2.trace =
        (release lay (dataOf lay a) p).trace ++
          callWatchers p.watcher (Event.onRequest (dataOf lay a)) ++
          [Action.construct (dataOf lay a)] ∧
      (request lay (release lay (dataOf lay a) p)).2.nodes = p.nodes ∧
      IsFreeList (request lay (release lay (dataOf lay a) p)).2 l ∧
      (∀ nodes : List Nat, nodes.Nodup → (∀ b ∈ nodes, b ≠ 0 ∧ b ∉ l) →
        IsFreeList (releases lay (nodes.map (dataOf lay)) p) (nodes.reverse ++ l) ∧
        (requests lay nodes.length (releases lay (nodes.map (dataOf lay)) p)).1 =
          (nodes.map (dataOf lay)).reverse ∧
        IsFreeList (requests lay nodes.length (releases lay (nodes.map (dataOf lay)) p)).2 l ∧
        slotsAllocated (requests lay nodes.length
          (releases lay (nodes.map (dataOf lay)) p)).2.trace =
          slotsAllocated (releases lay (nodes.map (dataOf lay)) p).trace) := by
  have hrel := release_isFreeList lay p l a h ha hn
  have hu : (release lay (dataOf lay a) p).unused ≠ 0 := by
    show nodeOf lay (dataOf lay a) ≠ 0
    rw [nodeOf_dataOf]; exact ha
  have hua : (release lay (dataOf lay a) p).unused = a := nodeOf_dataOf lay a
  have e := request_nonempty lay (release lay (dataOf lay a) p) hu
  refine ⟨by rw [e, hua], ?_, by rw [e]; rfl, ?_, ?_⟩
  · rw [e, hua]; rfl
  · rw [e]
    show IsList _ ((release lay (dataOf lay a) p).next (release lay (dataOf lay a) p).unused) l
    rw [hua]
    exact hrel.2.2
  · intro nodes hnd hnn
    obtain ⟨g1, _, _, _⟩ := releases_isFreeList lay nodes p l h hnd hnn
    have hlen : nodes.reverse.length = nodes.length := List.length_reverse _
    obtain ⟨k1, k2, _, _, k5⟩ := requests_pop lay nodes.reverse _ l g1
    rw [hlen] at k1 k2 k5
    exact ⟨g1, by rw [k1, List.map_reverse], k2, k5⟩

/-- Witness of C14: the pool built with two slots, after both were requested;
the handles 24 and 40 are live, the free list is empty. -/
theorem release_then_request_lifo_witness :
    IsFreeList (requests lp64 2 (newNum lp64 2)).2 [] ∧ 16 ≠ 0 ∧ 16 ∉ ([] : List Nat) ∧
      (request lp64 (release lp64 (dataOf lp64 16) (requests lp64 2 (newNum lp64 2)).2)).1 =
        dataOf lp64 16 :=
  ⟨rfl, by decide, by decide,
    (release_then_request_lifo lp64 (requests lp64 2 (newNum lp64 2)).2 [] 16 rfl
      (by decide) (by decide)).1⟩

/-! ## The scenario: grow, give back, tear down -/

theorem requests_grow (lay : Layout) (k : Nat) (p : Pool) (hu : p.unused = 0) :
    (requests lay k p).1 = (List.range' p.nodes k).map (fun i => dataOf lay (nodeAddr lay i)) ∧
      (requests lay k p).2.unused = 0 ∧
      (requests lay k p).2.watcher = p.watcher ∧
      (requests lay k p).2.nodes = p.nodes + k ∧
      notifications (requests lay k p).2.trace =
        notifications p.trace ++
          (List.range' p.nodes k).flatMap (fun i =>
            p.watcher.map (fun w => (w, Event.onAlloc (intOfSize lay.nodeSize))) ++
              p.watcher.map (fun w => (w, Event.onRequest (dataOf lay (nodeAddr lay i))))) := by
  induction k generalizing p with
  | zero => exact ⟨rfl, hu, rfl, rfl, by simp [requests]⟩
  | succ k ih =>
    have e := request_empty lay p hu
    have hu2 : (request lay p).2.unused = 0 := by rw [e]; exact hu
    have hn2 : (request lay p).2.nodes = p.nodes + 1 := by rw [e]
    have hw2 : (request lay p).2.watcher = p.watcher := by rw [e]
    obtain ⟨g1, g2, g3, g4, g5⟩ := ih (request lay p).2 hu2
    rw [hn2] at g1 g4 g5
    rw [hw2] at g3 g5
    refine ⟨?_, g2, g3, ?_, ?_⟩
    · show (request lay p).1 :: (requests lay k (request lay p).2).1 = _
      rw [g1, e, List.range'_succ]; rfl
    · show (requests lay k (request lay p).2).2.nodes = _
      rw [g4]; omega
    · show notifications (requests lay k (request lay p).2).2.trace = _
      rw [g5, e, List.range'_succ]
      simp [notifications_append, notifications_callWatchers, notifications]

theorem flatMap_singleton {α β : Type} (l : List α) (f : α → β) :
    l.flatMap (fun b => [f b]) = l.map f := by
  induction l with
  | nil => rfl
  | cons a l ih => simp [List.flatMap_cons, ih]

/-- C13, counterexample. The scenario with three requests on the 64-bit layout
with an 8-byte pooled type (`objectSize()` is 8): each request calls
`onAlloc(16)`, and after the three releases the destructor calls `onFree(48)`. -/
theorem scenario_bytes_counterexample :
    objectSize lp64 (newW (some 1)) = 8 ∧
      (requests lp64 3 (newW (some 1))).1 = [24, 40, 56] ∧
      notifications (requests lp64 3 (newW (some 1))).2.trace =
        [(1, Event.onAlloc 16), (1, Event.onRequest 24), (1, Event.onAlloc 16),
          (1, Event.onRequest 40), (1, Event.onAlloc 16), (1, Event.onRequest 56)] ∧
      (destroy lp64 3 (releases lp64 [24, 40, 56] (requests lp64 3 (newW (some 1))).2)).map
          (fun q => notifications q.trace) =
        some [(1, Event.onAlloc 16), (1, Event.onRequest 24), (1, Event.onAlloc 16),
          (1, Event.onRequest 40), (1, Event.onAlloc 16), (1, Event.onRequest 56),
          (1, Event.onRelease 24), (1, Event.onRelease 40), (1, Event.onRelease 56),
          (1, Event.onFree 48)] := by
  decide

/-- C13, amended. On the empty pool `MemoryPool(w)`, `k ≥ 1` requests return
the data addresses of the nodes `0 .. k-1`, call `onAlloc(sizeof(Node))` and
then `onRequest` once per request, and leave the free list empty. Releasing
the `k` handles in any order calls `onRelease` once per handle and nothing
else, and leaves `k` nodes on the free list. The destructor then deletes them
and calls `onFree` once, with `k * sizeof(Node)` as `int`. The byte counts are
those of `sizeof(Node)`, which is larger than `objectSize()`; they are exact
below `2^31`. -/
theorem scenario_grow_release_destroy (lay : Layout) (w : PoolWatcher) (k : Nat)
    (order : List Nat) (hk : 1 ≤ k) (hperm : order.Perm (List.range k)) :
    (requests lay k (newW (some w))).1 =
        (List.range k).map (fun i => dataOf lay (nodeAddr lay i)) ∧
      notifications (requests lay k (newW (some w))).2.trace =
        (List.range k).flatMap (fun i =>
          [(w, Event.onAlloc (intOfSize lay.nodeSize)),
            (w, Event.onRequest (dataOf lay (nodeAddr lay i)))]) ∧
      IsFreeList (requests lay k (newW (some w))).2 [] ∧
      notifications (releases lay ((order.map (nodeAddr lay)).map (dataOf lay))
          (requests lay k (newW (some w))).2).trace =
        notifications (requests lay k (newW (some w))).2.trace ++
          (order.map (nodeAddr lay)).map (fun b => (w, Event.onRelease (dataOf lay b))) ∧
      IsFreeList (releases lay ((order.map (nodeAddr lay)).map (dataOf lay))
          (requests lay k (newW (some w))).2) (order.map (nodeAddr lay)).reverse ∧
      (order.map (nodeAddr lay)).reverse.length = k ∧
      (∃ q, destroy lay k (releases lay ((order.map (nodeAddr lay)).map (dataOf lay))
          (requests lay k (newW (some w))).2) = some q ∧
        notifications q.trace =
          notifications (releases lay ((order.map (nodeAddr lay)).map (dataOf lay))
            (requests lay k (newW (some w))).2).trace ++
            [(w, Event.onFree (intOfSize ((lay.nodeSize : Int) * (k : Int))))]) ∧
      (k * lay.nodeSize < 2147483648 →
        intOfSize lay.nodeSize = lay.nodeSize ∧
          intOfSize ((lay.nodeSize : Int) * (k : Int)) = ((k * lay.nodeSize : Nat) : Int)) ∧
      objectSize lay (newW (some w)) < lay.nodeSize := by
  obtain ⟨g1, g2, g3, _, g5⟩ := requests_grow lay k (newW (some w)) rfl
  have hfl : IsFreeList (requests lay k (newW (some w))).2 [] := g2
  have hw : (requests lay k (newW (some w))).2.watcher = [w] := g3
  have hnd : (order.map (nodeAddr lay)).Nodup :=
    List.Nodup.map (fun _ _ e => nodeAddr_inj lay e) (hperm.nodup_iff.mpr (List.nodup_range k))
  have hnz : ∀ b ∈ order.map (nodeAddr lay), b ≠ 0 ∧ b ∉ ([] : List Nat) := by
    intro b hb
    obtain ⟨i, _, e⟩ := List.mem_map.mp hb
    exact ⟨e ▸ nodeAddr_ne_zero lay i, by simp⟩
  obtain ⟨r1, r2, _, r4⟩ := releases_isFreeList lay (order.map (nodeAddr lay)) _ [] hfl hnd hnz
  rw [List.append_nil] at r1
  have hlen : (order.map (nodeAddr lay)).reverse.length = k := by
    rw [List.length_reverse, List.length_map, hperm.length_eq, List.length_range]
  have hobj : objectSize lay (newW (some w)) < lay.nodeSize := by
    have hle : objectSize lay (newW (some w)) ≤ lay.objSize := Nat.mod_le _ _
    have h1 := lay.ptr_pos
    have h2 := lay.node_ge
    omega
  refine ⟨?_, ?_, hfl, ?_, r1, hlen, ?_, ?_, hobj⟩
  · rw [g1, List.range_eq_range']; rfl
  · rw [g5, List.range_eq_range']
    simp [newW, addWatcher, new, notifications]
  · rw [r4, hw]
    congr 1
    exact flatMap_singleton _ _
  · refine ⟨_, destroy_spec lay k _ _ r1 (Nat.le_of_eq hlen), ?_⟩
    rw [hlen]
    simp only [notifications_append, notifications_deleteNodes, notifications_callWatchers,
      r2, hw, List.append_nil, List.map]
  · intro hlt
    have hns : lay.nodeSize < 2147483648 := by
      have : lay.nodeSize ≤ k * lay.nodeSize := Nat.le_mul_of_pos_left _ hk
      omega
    refine ⟨intOfSize_of_lt _ hns, ?_⟩
    have e : (lay.nodeSize : Int) * (k : Int) = ((k * lay.nodeSize : Nat) : Int) := by
      push_cast; ring
    rw [e]
    exact intOfSize_of_lt _ hlt

/-- Witness of C13: three requests, the handles given back in the order of the
nodes 2, 0, 1. -/
theorem scenario_grow_release_destroy_witness :
    1 ≤ 3 ∧ [2, 0, 1].Perm (List.range 3) ∧
      (requests lp64 3 (newW (some 1))).1 =
        (List.range 3).map (fun i => dataOf lp64 (nodeAddr lp64 i)) ∧
      IsFreeList (releases lp64 (([2, 0, 1].map (nodeAddr lp64)).map (dataOf lp64))
          (requests lp64 3 (newW (some 1))).2) ([2, 0, 1].map (nodeAddr lp64)).reverse :=
  ⟨by decide, by decide,
    (scenario_grow_release_destroy lp64 1 3 [2, 0, 1] (by decide) (by decide)).1,
    (scenario_grow_release_destroy lp64 1 3 [2, 0, 1] (by decide) (by decide)).2.2.2.2.1⟩

/-! ## Byte accounting -/

theorem allocBytes_append (s t : List (PoolWatcher × Event)) :
    allocBytes (s ++ t) = allocBytes s + allocBytes t := by
  induction s with
  | nil => simp [allocBytes]
  | cons a s ih =>
    obtain ⟨w, e⟩ := a
    cases e <;> simp [allocBytes, ih]
    ring

theorem freeBytes_append (s t : List (PoolWatcher × Event)) :
    freeBytes (s ++ t) = freeBytes s + freeBytes t := by
  induction s with
  | nil => simp [freeBytes]
  | cons a s ih =>
    obtain ⟨w, e⟩ := a
    cases e <;> simp [freeBytes, ih]
    ring

theorem exec_bytes (lay : Layout) (w : PoolWatcher) (cs : List Call) (r : Run)
    (hw : r.pool.watcher = [w])
    (hcs : ∀ c ∈ cs, Call.isRequest c = true ∨ Call.isRelease c = true) :
    (Run.exec lay r cs).pool.watcher = [w] ∧
      allocBytes (notifications (Run.exec lay r cs).pool.trace) =
        allocBytes (notifications r.pool.trace) +
          (Run.grown lay r cs : Int) * intOfSize lay.nodeSize ∧
      freeBytes (notifications (Run.exec lay r cs).pool.trace) =
        freeBytes (notifications r.pool.trace) := by
  induction cs generalizing r with
  | nil => exact ⟨hw, by simp [Run.exec, Run.grown], rfl⟩
  | cons c cs ih =>
    have hcs2 : ∀ c ∈ cs, Call.isRequest c = true ∨ Call.isRelease c = true :=
      fun c hc => hcs c (List.mem_cons_of_mem _ hc)
    cases c with
    | addWatcher o =>
      have := hcs (Call.addWatcher o) (List.mem_cons_self _ _)
      simp [Call.isRequest, Call.isRelease] at this
    | release c =>
      have hw2 : (Run.step lay r (Call.release c)).pool.watcher = [w] := hw
      obtain ⟨g1, g2, g3⟩ := ih _ hw2 hcs2
      refine ⟨g1, g2.trans ?_, g3.trans ?_⟩
      · show allocBytes (notifications (release lay c r.pool).trace) + _ = _
        simp [release, releaseNotified, notifications_append, notifications_callWatchers,
          notifications, allocBytes_append, allocBytes, hw, Run.grown]
      · show freeBytes (notifications (release lay c r.pool).trace) = _
        simp [release, releaseNotified, notifications_append, notifications_callWatchers,
          notifications, freeBytes_append, freeBytes, hw]
    | request =>
      by_cases hu : r.pool.unused = 0
      · have e := request_empty lay r.pool hu
        have hw2 : (Run.step lay r Call.request).pool.watcher = [w] := by
          show (request lay r.pool).2.watcher = [w]
          rw [e]; exact hw
        obtain ⟨g1, g2, g3⟩ := ih _ hw2 hcs2
        refine ⟨g1, g2.trans ?_, g3.trans ?_⟩
        · show allocBytes (notifications (request lay r.pool).2.trace) + _ = _
          rw [e]
          simp [notifications_append, notifications_callWatchers, notifications,
            allocBytes_append, allocBytes, hw, Run.grown, hu]
          ring
        · show freeBytes (notifications (request lay r.pool).2.trace) = _
          rw [e]
          simp [notifications_append, notifications_callWatchers, notifications,
            freeBytes_append, freeBytes, hw]
      · have e := request_nonempty lay r.pool hu
        have hw2 : (Run.step lay r Call.request).pool.watcher = [w] := by
          show (request lay r.pool).2.watcher = [w]
          rw [e]; exact hw
        obtain ⟨g1, g2, g3⟩ := ih _ hw2 hcs2
        refine ⟨g1, g2.trans ?_, g3.trans ?_⟩
        · show allocBytes (notifications (request lay r.pool).2.trace) + _ = _
          rw [e]
          simp [notifications_append, notifications_callWatchers, notifications,
            allocBytes_append, allocBytes, hw, Run.grown, hu]
        · show freeBytes (notifications (request lay r.pool).2.trace) = _
          rw [e]
          simp [notifications_append, notifications_callWatchers, notifications,
            freeBytes_append, freeBytes, hw]

theorem construct_bytes (lay : Layout) (num : Int) (w : PoolWatcher) :
    (newNumW lay num (some w)).watcher = [w] ∧
      allocBytes (notifications (newNumW lay num (some w)).trace) =
        (if num > 0 then intOfSize (lay.nodeSize * num) else 0) ∧
      freeBytes (notifications (newNumW lay num (some w)).trace) = 0 := by
  have hn := alloc_notifications lay num (newW (some w))
  have hw : (newNumW lay num (some w)).watcher = [w] := by
    unfold newNumW
    rw [alloc_toNat]
    obtain ⟨_, _, _, h3, _⟩ := alloc_spec lay num.toNat (newW (some w)) [] (poolInv_newW lay _)
    rw [h3]; rfl
  refine ⟨hw, ?_, ?_⟩
  · unfold newNumW
    rw [hn]
    by_cases h : num > 0 <;> simp [h, newW, addWatcher, new, notifications, allocBytes]
  · unfold newNumW
    rw [hn]
    by_cases h : num > 0 <;> simp [h, newW, addWatcher, new, notifications, freeBytes]

/-- The exact byte totals of a run with one observer, ended by the destructor. -/
theorem bytes_formula (lay : Layout) (num : Int) (w : PoolWatcher) (cs : List Call)
    (fuel : Nat)
    (hcs : ∀ c ∈ cs, Call.isRequest c = true ∨ Call.isRelease c = true)
    (hv : Run.Valid lay (Run.start (newNumW lay num (some w))) cs)
    (hf : (session lay num (some w) cs).pool.nodes ≤ fuel) :
    ∃ (q : Pool) (d : Nat), destroy lay fuel (session lay num (some w) cs).pool = some q ∧
      allocBytes (notifications q.trace) =
        (if num > 0 then intOfSize (lay.nodeSize * num) else 0) +
          (Run.grown lay (Run.start (newNumW lay num (some w))) cs : Int) *
            intOfSize lay.nodeSize ∧
      freeBytes (notifications q.trace) = intOfSize ((lay.nodeSize : Int) * (d : Int)) ∧
      d + (session lay num (some w) cs).live.length =
        num.toNat + Run.grown lay (Run.start (newNumW lay num (some w))) cs ∧
      (session lay num (some w) cs).pool.nodes =
        num.toNat + Run.grown lay (Run.start (newNumW lay num (some w))) cs := by
  obtain ⟨l0, h0⟩ := runInv_construct lay num (some w)
  obtain ⟨l, hinv⟩ := runInv_exec lay cs _ l0 h0 hv
  have hinv2 : RunInv lay (session lay num (some w) cs) l := hinv
  obtain ⟨c1, c2, c3⟩ := construct_bytes lay num w
  obtain ⟨b1, b2, b3⟩ := exec_bytes lay w cs (Run.start (newNumW lay num (some w))) c1 hcs
  have hgrow : (session lay num (some w) cs).pool.nodes =
      num.toNat + Run.grown lay (Run.start (newNumW lay num (some w))) cs := by
    rw [session, exec_nodes]
    show (newNumW lay num (some w)).nodes + _ = _
    rw [newNumW_nodes]
  obtain ⟨⟨hl, _, _, _⟩, _, _, _, _, hlen, _⟩ := hinv2
  have hfuel : l.length ≤ fuel := by omega
  refine ⟨_, l.length, destroy_spec lay fuel _ l hl hfuel, ?_, ?_, by rw [← hgrow]; exact hlen,
    hgrow⟩
  · have b2b : allocBytes (notifications (session lay num (some w) cs).pool.trace) = _ := b2
    simp only [notifications_append, notifications_deleteNodes, notifications_callWatchers,
      allocBytes_append, List.append_nil]
    rw [b2b]
    have b1b : (session lay num (some w) cs).pool.watcher = [w] := b1
    have c2b : allocBytes (notifications (Run.start (newNumW lay num (some w))).pool.trace)
        = _ := c2
    rw [b1b, c2b]
    simp [allocBytes]
  · have b3b : freeBytes (notifications (session lay num (some w) cs).pool.trace) = _ := b3
    simp only [notifications_append, notifications_deleteNodes, notifications_callWatchers,
      freeBytes_append, List.append_nil]
    rw [b3b]
    have b1b : (session lay num (some w) cs).pool.watcher = [w] := b1
    have c3b : freeBytes (notifications (Run.start (newNumW lay num (some w))).pool.trace)
        = 0 := c3
    rw [b1b, c3b]
    simp [freeBytes]

theorem intOfSize_dvd (x : Int) : (4294967296 : Int) ∣ intOfSize x - x := by
  unfold intOfSize; omega

theorem intOfSize_congr (a b : Int) (h : (4294967296 : Int) ∣ a - b) :
    intOfSize a = intOfSize b := by
  unfold intOfSize; omega

theorem one_request_accounting (lay : Layout) (N : Nat) (w : PoolWatcher) (hN : 0 < N) :
    ∃ q, destroy lay N (session lay N (some w) [Call.request]).pool = some q ∧
      allocBytes (notifications q.trace) = intOfSize ((lay.nodeSize : Int) * (N : Int)) ∧
      freeBytes (notifications q.trace) =
        intOfSize ((lay.nodeSize : Int) * ((N - 1 : Nat) : Int)) ∧
      (session lay N (some w) [Call.request]).live.length = 1 := by
  have hpos : ((N : Nat) : Int) > 0 := by exact_mod_cast hN
  have hu : (newNumW lay N (some w)).unused ≠ 0 := by
    obtain ⟨⟨a1, _, _, _⟩, _, _, _⟩ := newNumW_spec lay N (some w)
    obtain ⟨k, rfl⟩ : ∃ k, N = k + 1 := ⟨N - 1, by omega⟩
    rw [firstNodes_succ] at a1
    exact a1.1 ▸ a1.2.1
  have hg : Run.grown lay (Run.start (newNumW lay N (some w))) [Call.request] = 0 := by
    show (if (newNumW lay N (some w)).unused = 0 then 1 else 0) + 0 = 0
    rw [if_neg hu]
  have hnodes : (session lay N (some w) [Call.request]).pool.nodes ≤ N := by
    have := exec_nodes lay [Call.request] (Run.start (newNumW lay N (some w)))
    rw [hg] at this
    have h2 : (session lay N (some w) [Call.request]).pool.nodes
        = (newNumW lay N (some w)).nodes + 0 := this
    rw [h2, newNumW_nodes]; simp
  obtain ⟨q, d, h1, hA, hF, hd, _⟩ := bytes_formula lay N w [Call.request] N
    (by intro c hc; simp at hc; subst hc; exact Or.inl rfl) trivial hnodes
  have hlive : (session lay N (some w) [Call.request]).live.length = 1 := rfl
  rw [hg, hlive] at hd
  have hd2 : d = N - 1 := by simp at hd; omega
  refine ⟨q, h1, ?_, ?_, hlive⟩
  · rw [hA, hg]; simp [hpos]
  · rw [hF, hd2]

/-- C15, counterexample. A pool built with `2^27` slots of 16 bytes and one
observer, one `request()`, then teardown with that one slot live: `onAlloc`
brought `-2147483648` in total and `onFree` brings `2147483632`, so the
difference is not `16 * 1`. -/
theorem byte_accounting_counterexample :
    ∃ q, destroy lp64 134217728
        (session lp64 (134217728 : Nat) (some 1) [Call.request]).pool = some q ∧
      allocBytes (notifications q.trace) = -2147483648 ∧
      freeBytes (notifications q.trace) = 2147483632 ∧
      (session lp64 (134217728 : Nat) (some 1) [Call.request]).live.length = 1 ∧
      (-2147483648 : Int) - 2147483632 ≠ ((lp64.nodeSize * 1 : Nat) : Int) :=
  Exists.imp
    (fun _ h =>
      And.intro (And.left h)
        (And.intro (Eq.trans (And.left (And.right h)) (by decide))
          (And.intro (Eq.trans (And.left (And.right (And.right h))) (by decide))
            (And.intro (And.right (And.right (And.right h))) (by decide)))))
    (one_request_accounting lp64 134217728 1 (by decide))

/-- C15, amended. For a pool with one observer from construction on and any
sequence of `request`/`release` calls with valid releases, followed by the
destructor (which ends: fuel equal to the number of allocated slots is
enough): the sum of the `onAlloc` byte counts minus the `onFree` byte count
agrees with `sizeof(Node)` times the number of live slots modulo `2^32`, the
byte counts being 32-bit `int`s; when the bytes ever allocated stay below
`2^31` the two are equal, and then the totals coincide exactly when no slot is
live at teardown. -/
theorem byte_accounting (lay : Layout) (num : Int) (w : PoolWatcher) (cs : List Call)
    (fuel : Nat)
    (hcs : ∀ c ∈ cs, Call.isRequest c = true ∨ Call.isRelease c = true)
    (hv : Run.Valid lay (Run.start (newNumW lay num (some w))) cs)
    (hf : (session lay num (some w) cs).pool.nodes ≤ fuel) :
    ∃ q, destroy lay fuel (session lay num (some w) cs).pool = some q ∧
      intOfSize (allocBytes (notifications q.trace) - freeBytes (notifications q.trace)) =
        intOfSize ((lay.nodeSize * (session lay num (some w) cs).live.length : Nat) : Int) ∧
      ((session lay num (some w) cs).pool.nodes * lay.nodeSize < 2147483648 →
        allocBytes (notifications q.trace) - freeBytes (notifications q.trace) =
            ((lay.nodeSize * (session lay num (some w) cs).live.length : Nat) : Int) ∧
          (allocBytes (notifications q.trace) = freeBytes (notifications q.trace) ↔
            (session lay num (some w) cs).live = [])) := by
  obtain ⟨q, d, h1, hA, hF, hd, hn⟩ := bytes_formula lay num w cs fuel hcs hv hf
  generalize Run.grown lay (Run.start (newNumW lay num (some w))) cs = g at hA hd hn
  generalize (session lay num (some w) cs).live = live at hd ⊢
  generalize (session lay num (some w) cs).pool.nodes = nodes at hn ⊢
  have hdZ : (d : Int) + (live.length : Int) = (num.toNat : Int) + (g : Int) := by
    exact_mod_cast hd
  have hnum : (if num > 0 then intOfSize (lay.nodeSize * num) else 0) =
      (if num > 0 then intOfSize ((lay.nodeSize : Int) * (num.toNat : Int)) else 0) := by
    by_cases h : num > 0
    · rw [Int.toNat_of_nonneg (le_of_lt h)]
    · simp [h]
  have hnum0 : ¬ num > 0 → num.toNat = 0 := fun h => Int.toNat_eq_zero.mpr (not_lt.mp h)
  rw [hnum] at hA
  refine ⟨q, h1, ?_, ?_⟩
  · apply intOfSize_congr
    rw [hA, hF]
    obtain ⟨x, hx⟩ := intOfSize_dvd ((lay.nodeSize : Int) * (num.toNat : Int))
    obtain ⟨y, hy⟩ := intOfSize_dvd (lay.nodeSize : Int)
    obtain ⟨z, hz⟩ := intOfSize_dvd ((lay.nodeSize : Int) * (d : Int))
    by_cases h : num > 0
    · refine ⟨x + g * y - z, ?_⟩
      rw [if_pos h]
      push_cast
      linear_combination hx + (g : Int) * hy - hz - (lay.nodeSize : Int) * hdZ
    · refine ⟨g * y - z, ?_⟩
      have h0 : (num.toNat : Int) = 0 := by exact_mod_cast hnum0 h
      rw [h0] at hdZ
      rw [if_neg h]
      push_cast
      linear_combination (g : Int) * hy - hz - (lay.nodeSize : Int) * hdZ
  · intro hb
    rw [hn] at hb
    have hns := nodeSize_pos lay
    have e1 : intOfSize ((lay.nodeSize : Int) * (num.toNat : Int))
        = (lay.nodeSize : Int) * (num.toNat : Int) := by
      have hle : num.toNat * lay.nodeSize ≤ (num.toNat + g) * lay.nodeSize :=
        Nat.mul_le_mul_right _ (Nat.le_add_right _ _)
      have := intOfSize_of_lt (num.toNat * lay.nodeSize) (by omega)
      push_cast at this
      rw [mul_comm] at this
      rw [this]
    have e2 : (g : Int) * intOfSize (lay.nodeSize : Int) = (g : Int) * (lay.nodeSize : Int) := by
      by_cases hg : g = 0
      · simp [hg]
      · have hle : 1 * lay.nodeSize ≤ (num.toNat + g) * lay.nodeSize :=
          Nat.mul_le_mul_right _ (by omega)
        rw [intOfSize_of_lt lay.nodeSize (by omega)]
    have e3 : intOfSize ((lay.nodeSize : Int) * (d : Int)) = (lay.nodeSize : Int) * (d : Int) := by
      have hle : d * lay.nodeSize ≤ (num.toNat + g) * lay.nodeSize :=
        Nat.mul_le_mul_right _ (by omega)
      have := intOfSize_of_lt (d * lay.nodeSize) (by omega)
      push_cast at this
      rw [mul_comm] at this
      rw [this]
    have hAlloc : allocBytes (notifications q.trace)
        = (lay.nodeSize : Int) * (num.toNat : Int) + (g : Int) * (lay.nodeSize : Int) := by
      rw [hA, ← e2]
      by_cases h : num > 0
      · rw [if_pos h, e1]
      · have h0 : (num.toNat : Int) = 0 := by exact_mod_cast hnum0 h
        rw [if_neg h, h0]; ring
    have hdiff : allocBytes (notifications q.trace) - freeBytes (notifications q.trace) =
        ((lay.nodeSize * live.length : Nat) : Int) := by
      rw [hAlloc, hF, e3]
      push_cast
      linear_combination (-(lay.nodeSize : Int)) * hdZ
    refine ⟨hdiff, ?_⟩
    constructor
    · intro heq
      rw [heq, sub_self] at hdiff
      have hz : lay.nodeSize * live.length = 0 := by exact_mod_cast hdiff.symm
      rcases Nat.mul_eq_zero.mp hz with h | h
      · omega
      · exact List.length_eq_zero.mp h
    · intro hl
      rw [hl] at hdiff
      simp at hdiff
      linarith

/-- Witness of C15: two slots pre-built, two requests, one release, teardown
with one slot live. -/
theorem byte_accounting_witness :
    (∀ c ∈ [Call.request, Call.request, Call.release 40],
        Call.isRequest c = true ∨ Call.isRelease c = true) ∧
      Run.Valid lp64 (Run.start (newNumW lp64 2 (some 1)))
        [Call.request, Call.request, Call.release 40] ∧
      (session lp64 2 (some 1) [Call.request, Call.request, Call.release 40]).pool.nodes ≤ 2 ∧
      ∃ q, destroy lp64 2
          (session lp64 2 (some 1) [Call.request, Call.request, Call.release 40]).pool = some q ∧
        intOfSize (allocBytes (notifications q.trace) - freeBytes (notifications q.trace)) =
          intOfSize ((lp64.nodeSize *
            (session lp64 2 (some 1)
              [Call.request, Call.request, Call.release 40]).live.length : Nat) : Int) :=
  ⟨by decide, ⟨by decide, trivial⟩, by decide,
    (byte_accounting lp64 2 1 [Call.request, Call.request, Call.release 40] 2 (by decide)
      ⟨by decide, trivial⟩ (by decide)).imp fun _ h => ⟨h.1, h.2.1⟩⟩

end MemoryPool
